import Mathlib

/-!
# Verification of the ssv-strategy-weights weight engines

Shallow embedding of src/services/simulation-utils.ts (the weighted-mean
engine: arithmetic / harmonic / geometric strategy weights, and the
risk-normalized obligation engine), together with theorems settling the
frozen claims about the natural-language specification.

Numbers: the TypeScript code computes with IEEE-754 doubles.  We model a
JS number exactly as either NaN, a signed infinity, or an exact rational
(type JSNum below).  Rounding and overflow of finite arithmetic are not
modelled (finite operations are exact); the special-value propagation
rules (division by zero, NaN propagation, infinity arithmetic) follow the
ECMAScript semantics, with zero modelled as +0 (all denominators that can
be zero in this code arise as sums of non-negative quantities, so the
sign of zero never matters).  Math.log and Math.exp are modelled by
parameters L E : Q -> Q giving their (finite) values, with the exactly
known IEEE points log 1 = 0 and exp 0 = 1 and the special values
log 0 = -inf, exp (-inf) = 0, exp (+inf) = +inf built in structurally.
-/

namespace SSV

/-- Model of a JavaScript number: NaN, a signed infinity
(inf true = positive infinity, inf false = negative infinity) or an
exact rational. -/
inductive JSNum where
  | nan : JSNum
  | inf : Bool → JSNum
  | fin : ℚ → JSNum
deriving DecidableEq, Repr

/-- JS addition on numbers (exact in the finite case). -/
def jadd : JSNum → JSNum → JSNum
  | JSNum.nan, _ => JSNum.nan
  | _, JSNum.nan => JSNum.nan
  | JSNum.inf s, JSNum.inf t => if s = t then JSNum.inf s else JSNum.nan
  | JSNum.inf s, JSNum.fin _ => JSNum.inf s
  | JSNum.fin _, JSNum.inf s => JSNum.inf s
  | JSNum.fin a, JSNum.fin b => JSNum.fin (a + b)

/-- JS multiplication on numbers (exact in the finite case). -/
def jmul : JSNum → JSNum → JSNum
  | JSNum.nan, _ => JSNum.nan
  | _, JSNum.nan => JSNum.nan
  | JSNum.inf s, JSNum.inf t => JSNum.inf (s = t)
  | JSNum.inf s, JSNum.fin a =>
      if a = 0 then JSNum.nan else JSNum.inf (s = decide (0 < a))
  | JSNum.fin a, JSNum.inf s =>
      if a = 0 then JSNum.nan else JSNum.inf (s = decide (0 < a))
  | JSNum.fin a, JSNum.fin b => JSNum.fin (a * b)

/-- JS division on numbers: 0/0 is NaN, x/0 for x nonzero is a signed
infinity, inf/inf is NaN, finite/inf is 0, and the finite case is exact. -/
def jdiv : JSNum → JSNum → JSNum
  | JSNum.nan, _ => JSNum.nan
  | _, JSNum.nan => JSNum.nan
  | JSNum.inf _, JSNum.inf _ => JSNum.nan
  | JSNum.inf s, JSNum.fin a =>
      if a = 0 then JSNum.inf s else JSNum.inf (s = decide (0 < a))
  | JSNum.fin _, JSNum.inf _ => JSNum.fin 0
  | JSNum.fin a, JSNum.fin b =>
      if b = 0 then (if a = 0 then JSNum.nan else JSNum.inf (decide (0 < a)))
      else JSNum.fin (a / b)

/-- JS division of two finite numbers. -/
def jdivq (a b : ℚ) : JSNum := jdiv (JSNum.fin a) (JSNum.fin b)

/-- Array.prototype.reduce((sum, w) => sum + w, 0) over JS numbers. -/
def jsum (l : List JSNum) : JSNum := l.foldl jadd (JSNum.fin 0)

/-- Model of Math.log restricted to positive finite arguments: the IEEE
value at 1 is exactly 0; elsewhere the value is given by the parameter L. -/
def mlogq (L : ℚ → ℚ) (a : ℚ) : ℚ := if a = 1 then 0 else L a

/-- Model of Math.exp restricted to finite arguments: the IEEE value at 0
is exactly 1; elsewhere the value is given by the parameter E. -/
def mexpq (E : ℚ → ℚ) (q : ℚ) : ℚ := if q = 0 then 1 else E q

/-- Model of Math.exp on a JS number: exp NaN = NaN, exp (-inf) = 0,
exp (+inf) = +inf, finite arguments via mexpq. -/
def jexp (E : ℚ → ℚ) : JSNum → JSNum
  | JSNum.nan => JSNum.nan
  | JSNum.inf true => JSNum.inf true
  | JSNum.inf false => JSNum.fin 0
  | JSNum.fin q => JSNum.fin (mexpq E q)

/-- A JS number is finite when it is neither NaN nor an infinity. -/
def JSNum.isFinite : JSNum → Prop
  | JSNum.fin _ => True
  | _ => False

instance : DecidablePred JSNum.isFinite := by
  intro x
  cases x with
  | nan => exact isFalse (fun h => h)
  | inf s => exact isFalse (fun h => h)
  | fin q => exact isTrue trivial

/-! ## Data model (src/types.ts)

A TokenCoefficient pairs a token address string with a numeric
coefficient.  A StrategyTokenWeight holds a numeric strategy id, a
map from token string to token data (we keep only the parsed amount:
the source reads tokenData.amount, a decimal string, through parseFloat;
we model it by the parsed rational and model the tokens object as an
association list with JS-object key semantics, i.e. unique keys and
first-match lookup), and an optional validatorBalanceWeight. -/

structure TokenCoefficient where
  token : String
  coefficient : ℚ
deriving DecidableEq, Repr

structure StrategyTokenWeight where
  strategy : ℤ
  tokens : List (String × ℚ)
  validatorBalanceWeight : Option ℚ
deriving DecidableEq, Repr

/-- JS Map.prototype.set on an association list: replace the value of an
existing key in place, otherwise append the new entry. -/
def mapSet {α : Type} (m : List (String × α)) (k : String) (v : α) :
    List (String × α) :=
  match m with
  | [] => [(k, v)]
  | (k', v') :: rest =>
      if k' = k then (k, v) :: rest else (k', v') :: mapSet rest k v

/-- Source calculateCoefficientsSum: coefficients.reduce((sum, coeff) =>
sum + coeff.coefficient, 0). -/
def calculateCoefficientsSum (coefficients : List TokenCoefficient) : ℚ :=
  coefficients.foldl (fun sum coeff => sum + coeff.coefficient) 0

/-- Source calculateWeightTotals: token amounts weighted by coefficients
plus the delegated balance weighted by the validator coefficient.  A
token contributes only when it is present with a (truthy) amount whose
parsed value is greater than 0. -/
def calculateWeightTotals (strategy : StrategyTokenWeight)
    (coefficients : List TokenCoefficient) (validatorCoefficient : ℚ) : ℚ :=
  let tokenTotal := coefficients.foldl (fun sum coeff =>
    match strategy.tokens.lookup coeff.token with
    | some amount => if 0 < amount then sum + amount * coeff.coefficient else sum
    | none => sum) 0
  let delegatedTotal := (strategy.validatorBalanceWeight.getD 0) * validatorCoefficient
  tokenTotal + delegatedTotal

/-- Source calculateWeightedRatioSum: sum of coefficient / amount over
tokens present with amount greater than 0, plus
validatorCoefficient / (validatorBalanceWeight or 1) when the validator
balance is greater than 0. -/
def calculateWeightedRatioSum (strategy : StrategyTokenWeight)
    (coefficients : List TokenCoefficient) (validatorCoefficient : ℚ) : ℚ :=
  let tokenRatioSum := coefficients.foldl (fun sum coeff =>
    match strategy.tokens.lookup coeff.token with
    | some amount => if 0 < amount then sum + coeff.coefficient / amount else sum
    | none => sum) 0
  let vbw := strategy.validatorBalanceWeight.getD 0
  let delegatedRatio :=
    if 0 < vbw then validatorCoefficient / (if vbw = 0 then 1 else vbw) else 0
  tokenRatioSum + delegatedRatio

/-- Token loop of source calculateWeightedLogSum: accumulate
coefficient * Math.log(amount) over the coefficient list; when a
coefficient is positive but its token is missing or its amount is not
greater than 0, return -Infinity immediately (none models that early
return; the hasValidTokens local of the source is never read and is
omitted). -/
def tokenLogLoop (L : ℚ → ℚ) (strategy : StrategyTokenWeight) :
    List TokenCoefficient → ℚ → Option ℚ
  | [], acc => some acc
  | coeff :: rest, acc =>
      match strategy.tokens.lookup coeff.token with
      | some amount =>
          if 0 < amount then
            tokenLogLoop L strategy rest (acc + coeff.coefficient * mlogq L amount)
          else if 0 < coeff.coefficient then none
          else tokenLogLoop L strategy rest acc
      | none =>
          if 0 < coeff.coefficient then none
          else tokenLogLoop L strategy rest acc

/-- Source calculateWeightedLogSum: token loop, then the delegated
balance contribution; a positive validator coefficient with no positive
delegated balance gives -Infinity. -/
def calculateWeightedLogSum (L : ℚ → ℚ) (strategy : StrategyTokenWeight)
    (coefficients : List TokenCoefficient) (validatorCoefficient : ℚ) : JSNum :=
  match tokenLogLoop L strategy coefficients 0 with
  | none => JSNum.inf false
  | some logSum =>
      let delegatedBalance := strategy.validatorBalanceWeight.getD 0
      if 0 < validatorCoefficient then
        if 0 < delegatedBalance then
          JSNum.fin (logSum + validatorCoefficient * mlogq L delegatedBalance)
        else JSNum.inf false
      else JSNum.fin logSum

/-- Unnormalized-weight pass of source calcArithmeticStrategyWeights:
per strategy, totalWeight / totalCoefficient, collected with Map.set
keyed by strategy.strategy.toString(). -/
def calcArithmeticUnnormalized (strategyTokenWeights : List StrategyTokenWeight)
    (coefficients : List TokenCoefficient) (validatorCoefficient : ℚ) :
    List (String × JSNum) :=
  strategyTokenWeights.foldl (fun weightMap strategy =>
    let totalCoefficient := calculateCoefficientsSum coefficients + validatorCoefficient
    let totalWeight := calculateWeightTotals strategy coefficients validatorCoefficient
    let normalizedWeight := jdivq totalWeight totalCoefficient
    mapSet weightMap (toString strategy.strategy) normalizedWeight) []

/-- Final normalization block shared verbatim by the three mean engines:
divide every entry of the map by the sum of all entries. -/
def normalizeWeights (unnormalizedWeights : List (String × JSNum)) :
    List (String × JSNum) :=
  let weightSum := jsum (unnormalizedWeights.map (fun p => p.2))
  unnormalizedWeights.map (fun p => (p.1, jdiv p.2 weightSum))

/-- Source calcArithmeticStrategyWeights. -/
def calcArithmeticStrategyWeights (strategyTokenWeights : List StrategyTokenWeight)
    (coefficients : List TokenCoefficient) (validatorCoefficient : ℚ) :
    List (String × JSNum) :=
  normalizeWeights (calcArithmeticUnnormalized strategyTokenWeights coefficients
    validatorCoefficient)

/-- Unnormalized-weight pass of source calcHarmonicStrategyWeights:
per strategy, coeffSum / denom when the denominator is nonzero, else 0. -/
def calcHarmonicUnnormalized (strategyTokenWeights : List StrategyTokenWeight)
    (coefficients : List TokenCoefficient) (validatorCoefficient : ℚ) :
    List (String × JSNum) :=
  let coeffSum := calculateCoefficientsSum coefficients + validatorCoefficient
  strategyTokenWeights.foldl (fun weightMap strategy =>
    let denom := calculateWeightedRatioSum strategy coefficients validatorCoefficient
    let finalWeight := if denom ≠ 0 then JSNum.fin (coeffSum / denom) else JSNum.fin 0
    mapSet weightMap (toString strategy.strategy) finalWeight) []

/-- Source calcHarmonicStrategyWeights. -/
def calcHarmonicStrategyWeights (strategyTokenWeights : List StrategyTokenWeight)
    (coefficients : List TokenCoefficient) (validatorCoefficient : ℚ) :
    List (String × JSNum) :=
  normalizeWeights (calcHarmonicUnnormalized strategyTokenWeights coefficients
    validatorCoefficient)

/-- Unnormalized-weight pass of source calcGeometricStrategyWeights:
per strategy, Math.exp(logSum / totalCoefficient) when logSum != 0
(the JS comparison logSum != 0 is true for -Infinity), else 0. -/
def calcGeometricUnnormalized (E L : ℚ → ℚ)
    (strategyTokenWeights : List StrategyTokenWeight)
    (coefficients : List TokenCoefficient) (validatorCoefficient : ℚ) :
    List (String × JSNum) :=
  strategyTokenWeights.foldl (fun weightMap strategy =>
    let totalCoefficient := calculateCoefficientsSum coefficients + validatorCoefficient
    let logSum := calculateWeightedLogSum L strategy coefficients validatorCoefficient
    let finalWeight :=
      if logSum ≠ JSNum.fin 0 then jexp E (jdiv logSum (JSNum.fin totalCoefficient))
      else JSNum.fin 0
    mapSet weightMap (toString strategy.strategy) finalWeight) []

/-- Source calcGeometricStrategyWeights. -/
def calcGeometricStrategyWeights (E L : ℚ → ℚ)
    (strategyTokenWeights : List StrategyTokenWeight)
    (coefficients : List TokenCoefficient) (validatorCoefficient : ℚ) :
    List (String × JSNum) :=
  normalizeWeights (calcGeometricUnnormalized E L strategyTokenWeights coefficients
    validatorCoefficient)

/-- Calculation-type selector of source calculateSimulationWeights. -/
inductive CalculationType where
  | arithmetic : CalculationType
  | geometric : CalculationType
  | harmonic : CalculationType
deriving DecidableEq, Repr

/-- Source calculateSimulationWeights.  The coefficients option of
WeightCalculationOptions is modelled as an Option to capture a caller
omitting it: with a non-empty strategy list each engine immediately
evaluates calculateCoefficientsSum(coefficients), and
undefined.reduce(...) throws a TypeError, modelled by Except.error. -/
def calculateSimulationWeights (E L : ℚ → ℚ)
    (strategyTokenWeights : List StrategyTokenWeight)
    (coefficients : Option (List TokenCoefficient)) (validatorCoefficient : ℚ)
    (calculationType : CalculationType) :
    Except Unit (List (String × JSNum)) :=
  if strategyTokenWeights.isEmpty then Except.ok []
  else
    match coefficients with
    | none => Except.error ()
    | some cs =>
        match calculationType with
        | CalculationType.geometric =>
            Except.ok (calcGeometricStrategyWeights E L strategyTokenWeights cs
              validatorCoefficient)
        | CalculationType.harmonic =>
            Except.ok (calcHarmonicStrategyWeights strategyTokenWeights cs
              validatorCoefficient)
        | CalculationType.arithmetic =>
            Except.ok (calcArithmeticStrategyWeights strategyTokenWeights cs
              validatorCoefficient)

/-! ## Risk-normalized obligation engine
(source calculateSimulationParticipantWeights)

The source function is async only because it first fetches
originalApiData through getParticipantWeights (network I/O); the numeric
computation after that call is pure.  We model the fetched data as the
parameter apiData.  console.log calls are elided. -/

/-- Model of String.prototype.toLowerCase restricted to the ASCII range
used by hex token addresses (letters A-Z map to a-z, everything else is
unchanged). -/
def jsCharToLower (c : Char) : Char :=
  if 'A' ≤ c ∧ c ≤ 'Z' then Char.ofNat (c.toNat + 32) else c

/-- Model of String.prototype.toLowerCase. -/
def jsToLower (s : String) : String := String.mk (s.data.map jsCharToLower)

/-- One entry of UIStrategy.tokenWeights (src/types.ts): token address,
optional weight (risk basis points), optional depositAmount.  The
depositAmount is a wei integer string in the source; we model it by the
parsed natural number, with none for undefined or the empty string (both
falsy), so that the truthy string "0" is some 0. -/
structure UITokenWeight where
  token : String
  weight : Option ℚ
  depositAmount : Option ℕ
deriving DecidableEq, Repr

/-- UIStrategy (src/types.ts): optional id, optional strategy id,
token weight list, optional validatorBalanceWeight. -/
structure UIStrategy where
  id : Option String
  strategy : Option String
  tokenWeights : List UITokenWeight
  validatorBalanceWeight : Option ℚ
deriving DecidableEq, Repr

/-- One tokenWeights entry of a strategy returned by the original
getParticipantWeights API call. -/
structure ApiTokenWeight where
  token : String
  weight : ℚ
deriving DecidableEq, Repr

/-- One strategy of the original API data. -/
structure ApiStrategy where
  id : String
  tokenWeights : List ApiTokenWeight
deriving DecidableEq, Repr

/-- One entry of the result list of
calculateSimulationParticipantWeights: id, accumulated per-token
weights, optional validatorBalanceWeight. -/
structure SimEntry where
  id : String
  tokenWeights : List (String × ℚ)
  validatorBalanceWeight : Option ℚ
deriving DecidableEq, Repr

/-- JS truthiness filter on an optional string (undefined and the empty
string are falsy). -/
def strTruthy : Option String → Option String
  | some s => if s = "" then none else some s
  | none => none

/-- Source (strategy.id or strategy.strategy)?.toString() followed by the
falsy check if (!strategyId) continue. -/
def getStrategyId (s : UIStrategy) : Option String :=
  match strTruthy s.id with
  | some v => some v
  | none => strTruthy s.strategy

/-- Source allConfiguredTokens = new Set(tokenCoefficients.map(tc =>
tc.token.toLowerCase())), as a list used for membership tests. -/
def allConfiguredTokens (tokenCoefficients : List TokenCoefficient) : List String :=
  tokenCoefficients.map (fun tc => jsToLower tc.token)

/-- Tokens-with-weights set built for one original API strategy: API
tokens with truthy positive weight, then all configured tokens. -/
def tokensWithWeightsOf (tokenCoefficients : List TokenCoefficient)
    (a : ApiStrategy) : List String :=
  ((a.tokenWeights.filter (fun tw => 0 < tw.weight)).map
    (fun tw => jsToLower tw.token)) ++ allConfiguredTokens tokenCoefficients

/-- Source originalTokensWithWeights map, keyed by original API strategy
id. -/
def originalTokensWithWeights (apiData : List ApiStrategy)
    (tokenCoefficients : List TokenCoefficient) : List (String × List String) :=
  apiData.foldl (fun m a =>
    mapSet m a.id (tokensWithWeightsOf tokenCoefficients a)) []

/-- Source allowedTokens = originalTokensWithWeights.get(strategyId) or
new Set(). -/
def allowedTokensFor (apiData : List ApiStrategy)
    (tokenCoefficients : List TokenCoefficient) (strategyId : String) :
    List String :=
  ((originalTokensWithWeights apiData tokenCoefficients).lookup strategyId).getD []

/-- Risk accumulation loop for one strategy (source lines: for each
tokenWeight with truthy token and truthy depositAmount, if the parsed
deposit is positive and the lower-cased token is allowed, add
(weight or 0) / 10000 to that token's accumulated risk). -/
def tokenRisksOf (allowed : List String) (s : UIStrategy) : List (String × ℚ) :=
  s.tokenWeights.foldl (fun tokenRisks tw =>
    if tw.token = "" ∨ tw.depositAmount = none then tokenRisks
    else
      let token := jsToLower tw.token
      let depositAmount : ℚ := (tw.depositAmount.getD 0 : ℕ)
      if 0 < depositAmount ∧ token ∈ allowed then
        let risk := (tw.weight.getD 0) / 10000
        let currentRisk := (tokenRisks.lookup token).getD 0
        mapSet tokenRisks token (currentRisk + risk)
      else tokenRisks) []

/-- Source riskByTokenAndStrategy: for every strategy with a valid id,
store its accumulated per-token risks keyed by token then by strategy
id. -/
def riskByTokenAndStrategy (apiData : List ApiStrategy)
    (tokenCoefficients : List TokenCoefficient)
    (strategies : List UIStrategy) : List (String × List (String × ℚ)) :=
  strategies.foldl (fun outer s =>
    match getStrategyId s with
    | none => outer
    | some strategyId =>
        let allowed := allowedTokensFor apiData tokenCoefficients strategyId
        (tokenRisksOf allowed s).foldl (fun outer' p =>
          mapSet outer' p.1 (mapSet ((outer'.lookup p.1).getD []) strategyId p.2))
          outer) []

/-- Map.set on the strategyWeightsMap, keyed by SimEntry.id. -/
def entrySet (m : List SimEntry) (e : SimEntry) : List SimEntry :=
  match m with
  | [] => [e]
  | e' :: rest => if e'.id = e.id then e :: rest else e' :: entrySet rest e

/-- First pass of the source: initialize the strategy weights map with
one entry per strategy with a valid id (empty token weights, no
validator balance). -/
def initPass (strategies : List UIStrategy) : List SimEntry :=
  strategies.foldl (fun m s =>
    match getStrategyId s with
    | none => m
    | some strategyId => entrySet m ⟨strategyId, [], none⟩) []

/-- Array.from(new Set(list)): deduplication keeping the first
occurrence of each element. -/
def jsDedup : List String → List String
  | [] => []
  | x :: xs => x :: jsDedup (xs.filter (fun y => y ≠ x))
termination_by l => l.length
decreasing_by
  simp only [List.length_cons]
  exact Nat.lt_succ_of_le (List.length_filter_le _ _)

/-- Source tokenAddresses: lower-cased tokens of every strategy with a
valid id, filtered by that strategy's allowed set, deduplicated. -/
def tokenAddresses (apiData : List ApiStrategy)
    (tokenCoefficients : List TokenCoefficient)
    (strategies : List UIStrategy) : List String :=
  jsDedup (strategies.foldl (fun acc s =>
    acc ++ (match getStrategyId s with
      | none => []
      | some strategyId =>
          (s.tokenWeights.map (fun tw => jsToLower tw.token)).filter
            (fun t => t ∈ allowedTokensFor apiData tokenCoefficients strategyId))) [])

/-- Source strategy.tokenWeights.find(tw => tw.token.toLowerCase() ===
tokenAddress). -/
def findTW (s : UIStrategy) (tokenAddress : String) : Option UITokenWeight :=
  s.tokenWeights.find? (fun tw => jsToLower tw.token = tokenAddress)

/-- Contribution of one strategy to the totalObligatedBalance of one
token (one iteration of the source's summation loop; the continue
statements of the source correspond to the 0 branches). -/
def totalOne (apiData : List ApiStrategy)
    (tokenCoefficients : List TokenCoefficient) (tokenAddress : String)
    (s : UIStrategy) : ℕ :=
  match getStrategyId s with
  | none => 0
  | some strategyId =>
      if tokenAddress ∈ allowedTokensFor apiData tokenCoefficients strategyId then
        match findTW s tokenAddress with
        | some tw => tw.depositAmount.getD 0
        | none => 0
      else 0

/-- Source totalObligatedBalance for one token: BigInt sum of the
depositAmounts of every strategy with a valid id for which the token is
allowed. -/
def totalObligatedFor (apiData : List ApiStrategy)
    (tokenCoefficients : List TokenCoefficient)
    (strategies : List UIStrategy) (tokenAddress : String) : ℕ :=
  (strategies.map (totalOne apiData tokenCoefficients tokenAddress)).sum

/-- Source riskByTokenAndStrategy.get(tokenAddress)?.get(strategyId) or 0. -/
def riskLookup (risks : List (String × List (String × ℚ)))
    (tokenAddress strategyId : String) : ℚ :=
  (((risks.lookup tokenAddress).getD []).lookup strategyId).getD 0

/-- Contribution of one strategy to the tempWeights list of one token
(one iteration of the source loop; the continue statements correspond to
the empty-list branches): for a strategy with a valid id, allowed token,
truthy depositAmount and nonzero obligated balance, the recorded entry is
(strategyId, term) with
term = (obligatedBalance / totalObligatedBalance) * Math.exp(-beta * risk),
beta the hard-coded 0.05 = 1/20 and
risk = Math.max(1, accumulated risk or 0). -/
def tempWeightOne (E : ℚ → ℚ) (apiData : List ApiStrategy)
    (tokenCoefficients : List TokenCoefficient)
    (risks : List (String × List (String × ℚ)))
    (tokenAddress : String) (totalObligatedBalance : ℕ)
    (s : UIStrategy) : List (String × ℚ) :=
  match getStrategyId s with
  | none => []
  | some strategyId =>
      if tokenAddress ∈ allowedTokensFor apiData tokenCoefficients strategyId then
        match findTW s tokenAddress with
        | some tw =>
            match tw.depositAmount with
            | some obligatedBalance =>
                if obligatedBalance = 0 then []
                else
                  [(strategyId,
                    ((obligatedBalance : ℚ) / (totalObligatedBalance : ℚ)) *
                      mexpq E (-(1/20) * max 1 (riskLookup risks tokenAddress strategyId)))]
            | none => []
        | none => []
      else []

/-- Source tempWeights list for one token: concatenation of the
per-strategy contributions, in strategy order (the source pushes each
contribution onto one array). -/
def tempWeightsFor (E : ℚ → ℚ) (apiData : List ApiStrategy)
    (tokenCoefficients : List TokenCoefficient)
    (strategies : List UIStrategy)
    (risks : List (String × List (String × ℚ)))
    (tokenAddress : String) (totalObligatedBalance : ℕ) : List (String × ℚ) :=
  (strategies.map (tempWeightOne E apiData tokenCoefficients risks tokenAddress
    totalObligatedBalance)).flatten

/-- Push a (token, weight) pair onto the tokenWeights list of the map
entry with the given id (source strategyWeight.tokenWeights.push, guarded
by if (strategyWeight)). -/
def pushWeight (m : List SimEntry) (strategyId : String) (p : String × ℚ) :
    List SimEntry :=
  m.map (fun e =>
    if e.id = strategyId then
      { e with tokenWeights := e.tokenWeights ++ [p] }
    else e)

/-- Body of the source for (const tokenAddress of tokenAddresses) loop:
skip the token if its total obligated balance is 0, otherwise compute
tempWeights, the normalization denominator (sum of all terms, which the
source accumulates alongside the pushes), cToken = 1/denominator when the
denominator is nonzero else 0, and push term * cToken per strategy. -/
def processToken (E : ℚ → ℚ) (apiData : List ApiStrategy)
    (tokenCoefficients : List TokenCoefficient)
    (strategies : List UIStrategy)
    (risks : List (String × List (String × ℚ)))
    (m : List SimEntry) (tokenAddress : String) : List SimEntry :=
  let totalObligatedBalance := totalObligatedFor apiData tokenCoefficients
    strategies tokenAddress
  if totalObligatedBalance = 0 then m
  else
    let tempWeights := tempWeightsFor E apiData tokenCoefficients strategies
      risks tokenAddress totalObligatedBalance
    let normalizationDenominator := (tempWeights.map (fun p => p.2)).sum
    let cToken : ℚ :=
      if normalizationDenominator = 0 then 0 else 1 / normalizationDenominator
    tempWeights.foldl (fun m' p => pushWeight m' p.1 (tokenAddress, p.2 * cToken)) m

/-- Set the validatorBalanceWeight of the map entry with the given id. -/
def setVbw (m : List SimEntry) (strategyId : String) (v : ℚ) : List SimEntry :=
  m.map (fun e =>
    if e.id = strategyId then { e with validatorBalanceWeight := some v } else e)

/-- Final pass of the source: for every strategy with a valid id whose
validatorBalanceWeight is not undefined, copy it unchanged onto the
result entry. -/
def validatorPass (strategies : List UIStrategy) (m : List SimEntry) :
    List SimEntry :=
  strategies.foldl (fun m' s =>
    match getStrategyId s with
    | none => m'
    | some strategyId =>
        match s.validatorBalanceWeight with
        | some v => setVbw m' strategyId v
        | none => m') m

/-- Source calculateSimulationParticipantWeights (pure part; apiData is
the strategy list fetched by the initial getParticipantWeights call). -/
def calculateSimulationParticipantWeights (E : ℚ → ℚ)
    (apiData : List ApiStrategy)
    (simulationStrategies : List UIStrategy)
    (tokenCoefficients : List TokenCoefficient) : List SimEntry :=
  let m0 := initPass simulationStrategies
  let risks := riskByTokenAndStrategy apiData tokenCoefficients simulationStrategies
  let addrs := tokenAddresses apiData tokenCoefficients simulationStrategies
  let m1 := addrs.foldl
    (processToken E apiData tokenCoefficients simulationStrategies risks) m0
  validatorPass simulationStrategies m1

/-! ## Generic lemmas about the JSNum model and the map operations -/

/-- Finite value of a JS number (0 for NaN and infinities). -/
def finVal : JSNum → ℚ
  | JSNum.fin q => q
  | _ => 0

theorem jadd_fin (a b : ℚ) : jadd (JSNum.fin a) (JSNum.fin b) = JSNum.fin (a + b) := rfl

theorem foldl_jadd_fin (l : List JSNum) :
    ∀ (a : ℚ), (∀ x ∈ l, ∃ q, x = JSNum.fin q) →
    l.foldl jadd (JSNum.fin a) = JSNum.fin (a + (l.map finVal).sum) := by
  induction l with
  | nil => intro a _; simp
  | cons x xs ih =>
      intro a h
      obtain ⟨q, rfl⟩ := h x (List.mem_cons_self x xs)
      rw [List.foldl_cons, jadd_fin, ih (a + q)
        (fun y hy => h y (List.mem_cons_of_mem _ hy))]
      simp [finVal, add_assoc]

theorem jsum_eq_fin (l : List JSNum) (h : ∀ x ∈ l, ∃ q, x = JSNum.fin q) :
    jsum l = JSNum.fin ((l.map finVal).sum) := by
  rw [jsum, foldl_jadd_fin l 0 h, zero_add]

theorem jsum_values_fin (m : List (String × JSNum))
    (h : ∀ p ∈ m, ∃ q, p.2 = JSNum.fin q) :
    jsum (m.map (fun p => p.2)) = JSNum.fin ((m.map (fun p => finVal p.2)).sum) := by
  have hall : ∀ x ∈ m.map (fun p => p.2), ∃ q, x = JSNum.fin q := by
    intro x hx
    obtain ⟨p, hp, hpx⟩ := List.mem_map.mp hx
    obtain ⟨q, hq⟩ := h p hp
    exact ⟨q, hpx ▸ hq⟩
  rw [jsum_eq_fin _ hall, List.map_map]
  rfl

theorem foldl_jadd_map_fin {σ : Type} (l : List σ) (g : σ → ℚ) :
    ∀ (a : ℚ),
    (l.map (fun x => JSNum.fin (g x))).foldl jadd (JSNum.fin a) =
      JSNum.fin (a + (l.map g).sum) := by
  induction l with
  | nil => intro a; simp
  | cons x xs ih =>
      intro a
      simp only [List.map_cons, List.foldl_cons, jadd_fin, List.sum_cons, ih]
      rw [add_assoc]

theorem jdiv_fin_fin (a b : ℚ) (hb : b ≠ 0) :
    jdiv (JSNum.fin a) (JSNum.fin b) = JSNum.fin (a / b) := by
  simp [jdiv, hb]

theorem list_sum_map_div (l : List ℚ) (s : ℚ) :
    (l.map (fun q => q / s)).sum = l.sum / s := by
  induction l with
  | nil => simp
  | cons x xs ih => simp [ih, add_div]

/-- Every value of the map normalizeWeights produces is the finite
quotient of the corresponding unnormalized value by the total, when all
unnormalized values are finite and the total is nonzero. -/
theorem normalizeWeights_eq (m : List (String × JSNum))
    (h : ∀ p ∈ m, ∃ q, p.2 = JSNum.fin q)
    (hS : (m.map (fun p => finVal p.2)).sum ≠ 0) :
    normalizeWeights m =
      m.map (fun p => (p.1, JSNum.fin (finVal p.2 / (m.map (fun r => finVal r.2)).sum))) := by
  rw [normalizeWeights]
  rw [jsum_values_fin m h]
  apply List.map_congr_left
  intro p hp
  obtain ⟨q, hq⟩ := h p hp
  rw [hq, jdiv_fin_fin _ _ hS]
  simp [finVal]

theorem normalizeWeights_sum_one (m : List (String × JSNum))
    (h : ∀ p ∈ m, ∃ q, p.2 = JSNum.fin q)
    (hS : (m.map (fun p => finVal p.2)).sum ≠ 0) :
    jsum ((normalizeWeights m).map (fun p => p.2)) = JSNum.fin 1 := by
  rw [normalizeWeights_eq m h hS, List.map_map]
  have heq : ((fun p : String × JSNum => p.2) ∘
      (fun p : String × JSNum =>
        (p.1, JSNum.fin (finVal p.2 / (m.map (fun r => finVal r.2)).sum)))) =
      (fun p : String × JSNum =>
        JSNum.fin ((fun r : String × JSNum =>
          finVal r.2 / (m.map (fun r => finVal r.2)).sum) p)) := rfl
  rw [heq, jsum, foldl_jadd_map_fin, zero_add]
  have hmm : m.map (fun r : String × JSNum =>
      finVal r.2 / (m.map (fun r => finVal r.2)).sum) =
      (m.map (fun r => finVal r.2)).map
        (fun q => q / (m.map (fun r => finVal r.2)).sum) := by
    rw [List.map_map]
    rfl
  rw [hmm, list_sum_map_div, div_self hS]

theorem normalizeWeights_allFin (m : List (String × JSNum))
    (h : ∀ p ∈ m, ∃ q, p.2 = JSNum.fin q)
    (hS : (m.map (fun p => finVal p.2)).sum ≠ 0) :
    ∀ p ∈ normalizeWeights m, ∃ q, p.2 = JSNum.fin q := by
  rw [normalizeWeights_eq m h hS]
  intro p hp
  obtain ⟨p', hp', rfl⟩ := List.mem_map.mp hp
  exact ⟨_, rfl⟩

theorem mapSet_val {α : Type} (P : α → Prop) (m : List (String × α)) (k : String)
    (v : α) (hm : ∀ p ∈ m, P p.2) (hv : P v) :
    ∀ p ∈ mapSet m k v, P p.2 := by
  induction m with
  | nil => intro p hp; simp only [mapSet, List.mem_singleton] at hp; subst hp; exact hv
  | cons x xs ih =>
      intro p hp
      rw [mapSet] at hp
      by_cases hk : x.1 = k
      · simp only [hk, if_pos rfl] at hp
        rcases List.mem_cons.mp hp with h1 | h2
        · subst h1; exact hv
        · exact hm p (List.mem_cons_of_mem x h2)
      · simp only [if_neg hk] at hp
        rcases List.mem_cons.mp hp with h1 | h2
        · subst h1; exact hm x (List.mem_cons_self x xs)
        · exact ih (fun y hy => hm y (List.mem_cons_of_mem x hy)) p h2

theorem foldl_mapSet_val {σ α : Type} (P : α → Prop) (key : σ → String)
    (f : σ → α) (l : List σ) :
    ∀ (m0 : List (String × α)), (∀ p ∈ m0, P p.2) → (∀ s ∈ l, P (f s)) →
    ∀ p ∈ l.foldl (fun m s => mapSet m (key s) (f s)) m0, P p.2 := by
  induction l with
  | nil => intro m0 hm0 _; exact hm0
  | cons s rest ih =>
      intro m0 hm0 hf
      rw [List.foldl_cons]
      exact ih (mapSet m0 (key s) (f s))
        (mapSet_val P m0 (key s) (f s) hm0 (hf s (List.mem_cons_self s rest)))
        (fun y hy => hf y (List.mem_cons_of_mem s hy))

theorem mapSet_lookup_self {α : Type} (m : List (String × α)) (k : String) (v : α) :
    (mapSet m k v).lookup k = some v := by
  induction m with
  | nil => simp [mapSet, List.lookup]
  | cons x xs ih =>
      rw [mapSet]
      by_cases hk : x.1 = k
      · rw [if_pos hk]
        simp [List.lookup]
      · rw [if_neg hk]
        rw [List.lookup]
        have hbeq : (k == x.1) = false := by
          rw [beq_eq_false_iff_ne]
          exact fun h => hk h.symm
        rw [hbeq]
        exact ih

theorem mapSet_lookup_ne {α : Type} (m : List (String × α)) (k k' : String) (v : α)
    (h : k' ≠ k) : (mapSet m k v).lookup k' = m.lookup k' := by
  induction m with
  | nil => simp [mapSet, List.lookup, beq_eq_false_iff_ne.mpr h]
  | cons x xs ih =>
      rw [mapSet]
      by_cases hk : x.1 = k
      · subst hk
        simp [List.lookup, beq_eq_false_iff_ne.mpr h]
      · simp only [if_neg hk]
        rw [List.lookup, List.lookup]
        cases hbeq : (k' == x.1) with
        | true => rfl
        | false => exact ih

theorem foldl_mapSet_lookup_not_mem {σ α : Type} (key : σ → String) (f : σ → α)
    (l : List σ) (m0 : List (String × α)) (k : String)
    (hk : k ∉ l.map key) :
    (l.foldl (fun m s => mapSet m (key s) (f s)) m0).lookup k = m0.lookup k := by
  induction l generalizing m0 with
  | nil => rfl
  | cons s rest ih =>
      rw [List.foldl_cons]
      have h1 : k ∉ rest.map key := fun h => hk (List.mem_cons_of_mem _ h)
      have h2 : k ≠ key s := fun h => hk (by simp [h])
      rw [ih _ h1, mapSet_lookup_ne _ _ _ _ h2]

theorem foldl_mapSet_lookup_from {σ α : Type} (key : σ → String) (f : σ → α)
    (s : σ) (l : List σ) :
    ∀ (m0 : List (String × α)), (l.map key).Nodup → s ∈ l →
    (l.foldl (fun m x => mapSet m (key x) (f x)) m0).lookup (key s) = some (f s) := by
  induction l with
  | nil => intro m0 _ hs; cases hs
  | cons x rest ih =>
      intro m0 hnd hs
      rw [List.foldl_cons]
      rcases List.mem_cons.mp hs with h1 | h2
      · subst h1
        have hnot : key s ∉ rest.map key := by
          simp only [List.map_cons, List.nodup_cons] at hnd
          exact hnd.1
        rw [foldl_mapSet_lookup_not_mem key f rest _ _ hnot, mapSet_lookup_self]
      · have hnd' : (rest.map key).Nodup := by
          simp only [List.map_cons, List.nodup_cons] at hnd
          exact hnd.2
        exact ih _ hnd' h2

theorem foldl_mapSet_lookup {σ α : Type} (key : σ → String) (f : σ → α)
    (l : List σ) (hnd : (l.map key).Nodup) (s : σ) (hs : s ∈ l) :
    (l.foldl (fun m x => mapSet m (key x) (f x)) []).lookup (key s) = some (f s) :=
  foldl_mapSet_lookup_from key f s l [] hnd hs

/-! ## Per-strategy weight functions of the three mean engines -/

/-- The arithmetic per-strategy value stored by
calcArithmeticUnnormalized. -/
def arithWeightOf (coefficients : List TokenCoefficient) (validatorCoefficient : ℚ)
    (s : StrategyTokenWeight) : JSNum :=
  jdivq (calculateWeightTotals s coefficients validatorCoefficient)
    (calculateCoefficientsSum coefficients + validatorCoefficient)

theorem calcArithmeticUnnormalized_eq (strats : List StrategyTokenWeight)
    (cs : List TokenCoefficient) (vc : ℚ) :
    calcArithmeticUnnormalized strats cs vc =
      strats.foldl (fun m s =>
        mapSet m (toString s.strategy) (arithWeightOf cs vc s)) [] := rfl

/-- The harmonic per-strategy value stored by calcHarmonicUnnormalized. -/
def harmWeightOf (coefficients : List TokenCoefficient) (validatorCoefficient : ℚ)
    (s : StrategyTokenWeight) : JSNum :=
  if calculateWeightedRatioSum s coefficients validatorCoefficient ≠ 0 then
    JSNum.fin ((calculateCoefficientsSum coefficients + validatorCoefficient) /
      calculateWeightedRatioSum s coefficients validatorCoefficient)
  else JSNum.fin 0

theorem calcHarmonicUnnormalized_eq (strats : List StrategyTokenWeight)
    (cs : List TokenCoefficient) (vc : ℚ) :
    calcHarmonicUnnormalized strats cs vc =
      strats.foldl (fun m s =>
        mapSet m (toString s.strategy) (harmWeightOf cs vc s)) [] := rfl

/-- The geometric per-strategy value stored by calcGeometricUnnormalized. -/
def geoWeightOf (E L : ℚ → ℚ) (coefficients : List TokenCoefficient)
    (validatorCoefficient : ℚ) (s : StrategyTokenWeight) : JSNum :=
  if calculateWeightedLogSum L s coefficients validatorCoefficient ≠ JSNum.fin 0 then
    jexp E (jdiv (calculateWeightedLogSum L s coefficients validatorCoefficient)
      (JSNum.fin (calculateCoefficientsSum coefficients + validatorCoefficient)))
  else JSNum.fin 0

theorem calcGeometricUnnormalized_eq (E L : ℚ → ℚ)
    (strats : List StrategyTokenWeight)
    (cs : List TokenCoefficient) (vc : ℚ) :
    calcGeometricUnnormalized E L strats cs vc =
      strats.foldl (fun m s =>
        mapSet m (toString s.strategy) (geoWeightOf E L cs vc s)) [] := rfl

/-- calculateWeightedLogSum is a finite rational or negative infinity,
never NaN or positive infinity. -/
theorem logSum_cases (L : ℚ → ℚ) (s : StrategyTokenWeight)
    (cs : List TokenCoefficient) (vc : ℚ) :
    (∃ q, calculateWeightedLogSum L s cs vc = JSNum.fin q) ∨
      calculateWeightedLogSum L s cs vc = JSNum.inf false := by
  rw [calculateWeightedLogSum]
  cases tokenLogLoop L s cs 0 with
  | none => exact Or.inr rfl
  | some logSum =>
      dsimp only
      by_cases h1 : 0 < vc
      · rw [if_pos h1]
        by_cases h2 : 0 < s.validatorBalanceWeight.getD 0
        · rw [if_pos h2]; exact Or.inl ⟨_, rfl⟩
        · rw [if_neg h2]; exact Or.inr rfl
      · rw [if_neg h1]; exact Or.inl ⟨_, rfl⟩

theorem lookup_mem {α : Type} {l : List (String × α)} {k : String} {v : α}
    (h : l.lookup k = some v) : (k, v) ∈ l := by
  induction l with
  | nil => cases h
  | cons x xs ih =>
      rw [List.lookup] at h
      cases hbeq : (k == x.1) with
      | true =>
          rw [hbeq] at h
          cases h
          have : k = x.1 := beq_iff_eq.mp hbeq
          subst this
          exact List.mem_cons_self _ _
      | false =>
          rw [hbeq] at h
          exact List.mem_cons_of_mem _ (ih h)

theorem foldl_addlike {σ : Type} (body : ℚ → σ → ℚ) (g : σ → ℚ)
    (hbody : ∀ a x, body a x = a + g x) (l : List σ) :
    ∀ (a : ℚ), l.foldl body a = a + (l.map g).sum := by
  induction l with
  | nil => intro a; simp
  | cons x xs ih =>
      intro a
      rw [List.foldl_cons, hbody, ih, List.map_cons, List.sum_cons, add_assoc]

theorem lookup_map_values {α β : Type} (f : α → β) (m : List (String × α))
    (k : String) :
    (m.map (fun p => (p.1, f p.2))).lookup k = (m.lookup k).map f := by
  induction m with
  | nil => rfl
  | cons x xs ih =>
      rw [List.map_cons, List.lookup, List.lookup]
      cases hbeq : (k == x.1) with
      | true => rfl
      | false => exact ih

theorem coefficientsSum_nonneg (cs : List TokenCoefficient)
    (h : ∀ c ∈ cs, 0 ≤ c.coefficient) : 0 ≤ calculateCoefficientsSum cs := by
  rw [calculateCoefficientsSum,
    foldl_addlike _ (fun c => c.coefficient) (fun a x => rfl) cs 0, zero_add]
  apply List.sum_nonneg
  intro q hq
  obtain ⟨c, hc, rfl⟩ := List.mem_map.mp hq
  exact h c hc

/-! ## Spec-side formulas for the per-strategy scores (refinement
definitions following the words of the specification, for comparison with
the source functions) -/

/-- Spec formula for the arithmetic score: Sigma-i coefficient-i times
amount-i (absent tokens counting 0) plus validatorCoefficient times
validatorBalance. -/
def specArithScore (s : StrategyTokenWeight) (cs : List TokenCoefficient)
    (vc : ℚ) : ℚ :=
  (cs.map (fun c => c.coefficient * ((s.tokens.lookup c.token).getD 0))).sum +
    vc * (s.validatorBalanceWeight.getD 0)

/-- The source calculateWeightTotals computes the spec's arithmetic score
whenever all token amounts are non-negative. -/
theorem calculateWeightTotals_eq_spec (s : StrategyTokenWeight)
    (cs : List TokenCoefficient) (vc : ℚ)
    (hpos : ∀ p ∈ s.tokens, 0 ≤ p.2) :
    calculateWeightTotals s cs vc = specArithScore s cs vc := by
  rw [calculateWeightTotals, specArithScore]
  rw [foldl_addlike _ (fun c =>
    match s.tokens.lookup c.token with
    | some amount => if 0 < amount then amount * c.coefficient else 0
    | none => 0)]
  · rw [zero_add]
    congr 1
    · refine congrArg List.sum (List.map_congr_left ?_)
      intro c _
      cases hl : s.tokens.lookup c.token with
      | none => simp
      | some amount =>
          dsimp only
          by_cases ha : 0 < amount
          · rw [if_pos ha]
            simp [mul_comm]
          · rw [if_neg ha]
            have h0 : amount = 0 :=
              le_antisymm (not_lt.mp ha) (hpos (c.token, amount) (lookup_mem hl))
            simp [h0]
    · rw [mul_comm]
  · intro a x
    cases hl : s.tokens.lookup x.token with
    | none => simp
    | some amount =>
        dsimp only
        by_cases ha : 0 < amount
        · rw [if_pos ha, if_pos ha]
        · rw [if_neg ha, if_neg ha, add_zero]

/-- Spec formula for the harmonic ratio sum: Sigma-i coefficient-i over
amount-i over tokens with positive amount, plus validatorCoefficient over
validatorBalance if the validator balance is positive. -/
def specRatioSum (s : StrategyTokenWeight) (cs : List TokenCoefficient)
    (vc : ℚ) : ℚ :=
  (cs.map (fun c =>
    match s.tokens.lookup c.token with
    | some amount => if 0 < amount then c.coefficient / amount else 0
    | none => 0)).sum +
    (if 0 < s.validatorBalanceWeight.getD 0 then
      vc / s.validatorBalanceWeight.getD 0 else 0)

/-- The source calculateWeightedRatioSum computes the spec's ratio sum. -/
theorem calculateWeightedRatioSum_eq_spec (s : StrategyTokenWeight)
    (cs : List TokenCoefficient) (vc : ℚ) :
    calculateWeightedRatioSum s cs vc = specRatioSum s cs vc := by
  rw [calculateWeightedRatioSum, specRatioSum]
  rw [foldl_addlike _ (fun c =>
    match s.tokens.lookup c.token with
    | some amount => if 0 < amount then c.coefficient / amount else 0
    | none => 0)]
  · rw [zero_add]
    congr 1
    by_cases hv : 0 < s.validatorBalanceWeight.getD 0
    · rw [if_pos hv, if_pos hv, if_neg (ne_of_gt hv)]
    · rw [if_neg hv, if_neg hv]
  · intro a x
    cases hl : s.tokens.lookup x.token with
    | none => simp
    | some amount =>
        dsimp only
        by_cases ha : 0 < amount
        · rw [if_pos ha, if_pos ha]
        · rw [if_neg ha, if_neg ha, add_zero]

theorem arith_unnorm_allFin (strats : List StrategyTokenWeight)
    (cs : List TokenCoefficient) (vc : ℚ)
    (hC : calculateCoefficientsSum cs + vc ≠ 0) :
    ∀ p ∈ calcArithmeticUnnormalized strats cs vc, ∃ q, p.2 = JSNum.fin q := by
  rw [calcArithmeticUnnormalized_eq]
  refine foldl_mapSet_val (fun v => ∃ q, v = JSNum.fin q)
    (fun s => toString s.strategy) (fun s => arithWeightOf cs vc s) strats []
    (fun p hp => absurd hp (List.not_mem_nil p)) ?_
  intro s _
  dsimp only
  rw [arithWeightOf, jdivq, jdiv_fin_fin _ _ hC]
  exact ⟨_, rfl⟩

theorem harm_unnorm_allFin (strats : List StrategyTokenWeight)
    (cs : List TokenCoefficient) (vc : ℚ) :
    ∀ p ∈ calcHarmonicUnnormalized strats cs vc, ∃ q, p.2 = JSNum.fin q := by
  rw [calcHarmonicUnnormalized_eq]
  refine foldl_mapSet_val (fun v => ∃ q, v = JSNum.fin q)
    (fun s => toString s.strategy) (fun s => harmWeightOf cs vc s) strats []
    (fun p hp => absurd hp (List.not_mem_nil p)) ?_
  intro s _
  dsimp only
  rw [harmWeightOf]
  split
  · exact ⟨_, rfl⟩
  · exact ⟨_, rfl⟩

theorem geo_unnorm_allFin (E L : ℚ → ℚ) (strats : List StrategyTokenWeight)
    (cs : List TokenCoefficient) (vc : ℚ)
    (hC : 0 < calculateCoefficientsSum cs + vc) :
    ∀ p ∈ calcGeometricUnnormalized E L strats cs vc, ∃ q, p.2 = JSNum.fin q := by
  rw [calcGeometricUnnormalized_eq]
  refine foldl_mapSet_val (fun v => ∃ q, v = JSNum.fin q)
    (fun s => toString s.strategy) (fun s => geoWeightOf E L cs vc s) strats []
    (fun p hp => absurd hp (List.not_mem_nil p)) ?_
  intro s _
  dsimp only
  rw [geoWeightOf]
  rcases logSum_cases L s cs vc with ⟨q, hq⟩ | hq <;> rw [hq]
  · by_cases hq0 : q = 0
    · subst hq0; simp
    · have hne : JSNum.fin q ≠ JSNum.fin 0 := by
        simp [hq0]
      rw [if_pos hne, jdiv_fin_fin _ _ (ne_of_gt hC), jexp]
      exact ⟨_, rfl⟩
  · have hne : JSNum.inf false ≠ JSNum.fin 0 := fun h => JSNum.noConfusion h
    rw [if_pos hne, jdiv]
    rw [if_neg (ne_of_gt hC)]
    rw [decide_eq_true hC]
    exact ⟨0, rfl⟩

/-! ## Claim C9 -/

/-- C9: under the arithmetic mean each strategy's pre-normalization
weight equals ((sum of coefficient-i times amount-i) plus
validatorCoefficient times validatorBalance) divided by C (JS division),
and in the concrete scenario with coefficients [(tokenA, 1)],
validatorCoefficient 0 and amounts 10 and 30 the returned normalized
weights are exactly 1/4 and 3/4.  Confirmed. -/
theorem C9_arithmetic_score_formula :
    (∀ (s : StrategyTokenWeight) (cs : List TokenCoefficient) (vc : ℚ)
      (strats : List StrategyTokenWeight),
      (∀ p ∈ s.tokens, 0 ≤ p.2) →
      (strats.map (fun x => toString x.strategy)).Nodup →
      s ∈ strats →
      (calcArithmeticUnnormalized strats cs vc).lookup (toString s.strategy) =
        some (jdivq (specArithScore s cs vc) (calculateCoefficientsSum cs + vc))) ∧
    calcArithmeticStrategyWeights
      [⟨1, [("tokenA", 10)], none⟩, ⟨2, [("tokenA", 30)], none⟩]
      [⟨"tokenA", 1⟩] 0 =
      [("1", JSNum.fin (1/4)), ("2", JSNum.fin (3/4))] := by
  constructor
  · intro s cs vc strats hpos hnd hs
    have hlk := foldl_mapSet_lookup (fun x : StrategyTokenWeight => toString x.strategy)
      (fun x => arithWeightOf cs vc x) strats hnd s hs
    rw [calcArithmeticUnnormalized_eq]
    rw [hlk]
    simp only [arithWeightOf]
    rw [calculateWeightTotals_eq_spec s cs vc hpos]
  · norm_num +decide [calcArithmeticStrategyWeights, calcArithmeticUnnormalized,
      normalizeWeights, calculateCoefficientsSum, calculateWeightTotals, jdivq, jdiv,
      jsum, jadd, mapSet, List.lookup, show toString (1:ℤ) = "1" from rfl,
      show toString (2:ℤ) = "2" from rfl]

/-- Witness for C9: the general formula applied at a concrete strategy. -/
theorem C9_arithmetic_score_formula_witness :
    (calcArithmeticUnnormalized [⟨1, [("tokenA", 10)], none⟩] [⟨"tokenA", 1⟩] 0).lookup
        "1" =
      some (jdivq (specArithScore ⟨1, [("tokenA", 10)], none⟩ [⟨"tokenA", 1⟩] 0)
        (calculateCoefficientsSum [⟨"tokenA", 1⟩] + 0)) := by
  have h := C9_arithmetic_score_formula.1 ⟨1, [("tokenA", 10)], none⟩ [⟨"tokenA", 1⟩] 0
    [⟨1, [("tokenA", 10)], none⟩] (by norm_num) (by simp) (by simp)
  simpa [show toString (1:ℤ) = "1" from rfl] using h

/-! ## Claim C10 -/

/-- C10: under the harmonic mean each strategy's unnormalized weight is
C divided by the spec ratio sum when that sum is nonzero and 0 otherwise,
and in the concrete scenario a strategy whose only token amount is 0
receives weight 0 with the other strategy receiving the whole weight
after normalization.  Confirmed. -/
theorem C10_harmonic_weight_formula :
    (∀ (s : StrategyTokenWeight) (cs : List TokenCoefficient) (vc : ℚ)
      (strats : List StrategyTokenWeight),
      (strats.map (fun x => toString x.strategy)).Nodup →
      s ∈ strats →
      (calcHarmonicUnnormalized strats cs vc).lookup (toString s.strategy) =
        some (if specRatioSum s cs vc ≠ 0 then
          JSNum.fin ((calculateCoefficientsSum cs + vc) / specRatioSum s cs vc)
        else JSNum.fin 0)) ∧
    calcHarmonicStrategyWeights
      [⟨1, [("tokenA", 0)], none⟩, ⟨2, [("tokenA", 4)], none⟩]
      [⟨"tokenA", 1⟩] 0 =
      [("1", JSNum.fin 0), ("2", JSNum.fin 1)] := by
  constructor
  · intro s cs vc strats hnd hs
    have hlk := foldl_mapSet_lookup (fun x : StrategyTokenWeight => toString x.strategy)
      (fun x => harmWeightOf cs vc x) strats hnd s hs
    rw [calcHarmonicUnnormalized_eq]
    rw [hlk]
    simp only [harmWeightOf]
    rw [calculateWeightedRatioSum_eq_spec]
  · norm_num +decide [calcHarmonicStrategyWeights, calcHarmonicUnnormalized,
      normalizeWeights, calculateCoefficientsSum, calculateWeightedRatioSum, jdiv,
      jsum, jadd, mapSet, List.lookup, show toString (1:ℤ) = "1" from rfl,
      show toString (2:ℤ) = "2" from rfl]

/-- Witness for C10: the general formula applied at a concrete strategy
whose ratio sum is zero. -/
theorem C10_harmonic_weight_formula_witness :
    (calcHarmonicUnnormalized [⟨1, [("tokenA", 0)], none⟩] [⟨"tokenA", 1⟩] 0).lookup
        "1" =
      some (if specRatioSum ⟨1, [("tokenA", 0)], none⟩ [⟨"tokenA", 1⟩] 0 ≠ 0 then
        JSNum.fin ((calculateCoefficientsSum [⟨"tokenA", 1⟩] + 0) /
          specRatioSum ⟨1, [("tokenA", 0)], none⟩ [⟨"tokenA", 1⟩] 0)
      else JSNum.fin 0) := by
  have h := C10_harmonic_weight_formula.1 ⟨1, [("tokenA", 0)], none⟩ [⟨"tokenA", 1⟩] 0
    [⟨1, [("tokenA", 0)], none⟩] (by simp) (by simp)
  simpa [show toString (1:ℤ) = "1" from rfl] using h

/-! ## Claim C1 -/

/-- C1 counterexample: with one strategy, an empty coefficient list and
validator coefficient 0 the total coefficient mass C is 0, and the
arithmetic engine returns NaN (0/0) for that strategy, not 0: NaN does
reach the returned map. -/
theorem C1_counterexample :
    calcArithmeticStrategyWeights [⟨1, [("tokenA", 10)], none⟩] [] 0 =
      [("1", JSNum.nan)] ∧
    ¬ JSNum.isFinite JSNum.nan ∧ JSNum.nan ≠ JSNum.fin 0 := by
  refine ⟨?_, fun h => h, fun h => JSNum.noConfusion h⟩
  norm_num +decide [calcArithmeticStrategyWeights, calcArithmeticUnnormalized,
    normalizeWeights, calculateCoefficientsSum, calculateWeightTotals, jdivq, jdiv,
    jsum, jadd, mapSet, List.lookup, show toString (1:ℤ) = "1" from rfl]

/-- C1 amended: the code has no zero-substitution rules; when C = 0 or
when the sum of unnormalized weights is 0 the engines produce NaN
weights.  However, whenever C is nonzero (arithmetic), always
(harmonic), C positive (geometric), and the respective sum of
unnormalized weights is nonzero, every value in the returned map is a
finite number - no NaN or Infinity. -/
theorem C1_no_nan_for_nondegenerate_inputs :
    ∀ (strats : List StrategyTokenWeight) (cs : List TokenCoefficient) (vc : ℚ)
      (E L : ℚ → ℚ),
      (calculateCoefficientsSum cs + vc ≠ 0 →
        ((calcArithmeticUnnormalized strats cs vc).map (fun p => finVal p.2)).sum ≠ 0 →
        ∀ p ∈ calcArithmeticStrategyWeights strats cs vc, JSNum.isFinite p.2) ∧
      (((calcHarmonicUnnormalized strats cs vc).map (fun p => finVal p.2)).sum ≠ 0 →
        ∀ p ∈ calcHarmonicStrategyWeights strats cs vc, JSNum.isFinite p.2) ∧
      (0 < calculateCoefficientsSum cs + vc →
        ((calcGeometricUnnormalized E L strats cs vc).map (fun p => finVal p.2)).sum ≠ 0 →
        ∀ p ∈ calcGeometricStrategyWeights E L strats cs vc, JSNum.isFinite p.2) := by
  intro strats cs vc E L
  refine ⟨?_, ?_, ?_⟩
  · intro hC hS p hp
    obtain ⟨q, hq⟩ := normalizeWeights_allFin _ (arith_unnorm_allFin strats cs vc hC) hS p hp
    rw [hq]; trivial
  · intro hS p hp
    obtain ⟨q, hq⟩ := normalizeWeights_allFin _ (harm_unnorm_allFin strats cs vc) hS p hp
    rw [hq]; trivial
  · intro hC hS p hp
    obtain ⟨q, hq⟩ := normalizeWeights_allFin _ (geo_unnorm_allFin E L strats cs vc hC) hS p hp
    rw [hq]; trivial

/-- Witness for C1 amended: concrete nondegenerate inputs where all
three hypotheses hold and a concrete returned weight is finite. -/
theorem C1_no_nan_witness :
    (calculateCoefficientsSum [⟨"a", 1⟩] + 0 ≠ 0) ∧
    (((calcArithmeticUnnormalized [⟨1, [("a", 2)], none⟩] [⟨"a", 1⟩] 0).map
      (fun p => finVal p.2)).sum ≠ 0) ∧
    JSNum.isFinite ((("1", JSNum.fin (1:ℚ)) : String × JSNum)).2 := by
  have hC : calculateCoefficientsSum [⟨"a", 1⟩] + (0:ℚ) ≠ 0 := by
    norm_num [calculateCoefficientsSum]
  have hS : ((calcArithmeticUnnormalized [⟨1, [("a", 2)], none⟩] [⟨"a", 1⟩] 0).map
      (fun p => finVal p.2)).sum ≠ 0 := by
    norm_num +decide [calcArithmeticUnnormalized, calculateCoefficientsSum,
      calculateWeightTotals, jdivq, jdiv, mapSet, finVal, List.lookup,
      show toString (1:ℤ) = "1" from rfl]
  refine ⟨hC, hS, ?_⟩
  have hmem : (("1", JSNum.fin (1:ℚ)) : String × JSNum) ∈
      calcArithmeticStrategyWeights [⟨1, [("a", 2)], none⟩] [⟨"a", 1⟩] 0 := by
    norm_num +decide [calcArithmeticStrategyWeights, calcArithmeticUnnormalized,
      normalizeWeights, calculateCoefficientsSum, calculateWeightTotals, jdivq, jdiv,
      jsum, jadd, mapSet, List.lookup, show toString (1:ℤ) = "1" from rfl]
  have h := (C1_no_nan_for_nondegenerate_inputs [⟨1, [("a", 2)], none⟩] [⟨"a", 1⟩] 0
    (fun _ => 1) (fun _ => 5)).1 hC hS ("1", JSNum.fin (1:ℚ)) hmem
  exact h

/-! ## Claim C2 counterexample -/

/-- C2 counterexample: with coefficients [(tokenA, 1)] and one strategy
holding amount 0, the total input is zero, but the returned map is
[(1, NaN)] whose sum is NaN, not 0. -/
theorem C2_counterexample :
    calcArithmeticStrategyWeights [⟨1, [("tokenA", 0)], none⟩] [⟨"tokenA", 1⟩] 0 =
      [("1", JSNum.nan)] ∧
    jsum ((calcArithmeticStrategyWeights [⟨1, [("tokenA", 0)], none⟩]
      [⟨"tokenA", 1⟩] 0).map (fun p => p.2)) = JSNum.nan ∧
    JSNum.nan ≠ JSNum.fin 0 := by
  have h1 : calcArithmeticStrategyWeights [⟨1, [("tokenA", 0)], none⟩]
      [⟨"tokenA", 1⟩] 0 = [("1", JSNum.nan)] := by
    norm_num +decide [calcArithmeticStrategyWeights, calcArithmeticUnnormalized,
      normalizeWeights, calculateCoefficientsSum, calculateWeightTotals, jdivq, jdiv,
      jsum, jadd, mapSet, List.lookup, show toString (1:ℤ) = "1" from rfl]
  refine ⟨h1, ?_, fun h => JSNum.noConfusion h⟩
  rw [h1]
  rfl

/-! ## Claim C6 -/

/-- C6 counterexample: with a non-empty strategy list and the
coefficients option missing, the engine does not return an empty map; it
throws a TypeError (undefined.reduce), modelled by Except.error. -/
theorem C6_counterexample :
    calculateSimulationWeights (fun _ => 1) (fun _ => 1)
      [⟨1, [("tokenA", 10)], none⟩] none 0 CalculationType.arithmetic =
      Except.error () ∧
    (Except.error () : Except Unit (List (String × JSNum))) ≠ Except.ok [] := by
  exact ⟨rfl, fun h => Except.noConfusion h⟩

/-- C6 amended: an empty strategy list yields an empty map without
error for each of the three calculation types (even with the
coefficients option missing), but a missing coefficients option with a
non-empty strategy list throws a TypeError instead of returning an
empty map. -/
theorem C6_empty_strategies_empty_map :
    (∀ (E L : ℚ → ℚ) (co : Option (List TokenCoefficient)) (vc : ℚ)
      (ct : CalculationType),
      calculateSimulationWeights E L [] co vc ct = Except.ok []) ∧
    (∀ (E L : ℚ → ℚ) (s : StrategyTokenWeight) (rest : List StrategyTokenWeight)
      (vc : ℚ) (ct : CalculationType),
      calculateSimulationWeights E L (s :: rest) none vc ct = Except.error ()) := by
  exact ⟨fun E L co vc ct => rfl, fun E L s rest vc ct => rfl⟩

/-! ## Claim C3 -/

/-- Modelled from the spec (claim C3): the maximum finite logSum across
all strategies, none when no strategy has a finite logSum. -/
def specMaxFiniteLogSum (logSums : List JSNum) : Option ℚ :=
  logSums.foldl (fun acc x =>
    match x with
    | JSNum.fin q =>
        match acc with
        | some m => some (max m q)
        | none => some q
    | _ => acc) none

/-- Modelled from the spec (claim C3): the claimed stabilized geometric
weight exp(logSum minus maxLogSum), with minus-infinity giving 0 and
every weight 0 when no strategy has a finite logSum. -/
def specGeoWeight (E : ℚ → ℚ) (logSum : JSNum) (maxLog : Option ℚ) : JSNum :=
  match maxLog with
  | none => JSNum.fin 0
  | some m =>
      match logSum with
      | JSNum.fin q => JSNum.fin (mexpq E (q - m))
      | _ => JSNum.fin 0

/-- C3 counterexample: for a single strategy with amount 1 and
coefficient 1 the logSum is exactly 0; the spec's subtract-the-maximum
rule would give exp(0 - 0) = 1, but the code's unnormalized geometric
weight is 0 (the code computes exp(logSum / C) guarded by logSum != 0
and never subtracts the maximum logSum). -/
theorem C3_counterexample :
    (calcGeometricUnnormalized (fun _ => 1) (fun _ => 0)
        [⟨1, [("tokenA", 1)], none⟩] [⟨"tokenA", 1⟩] 0).lookup "1" =
      some (JSNum.fin 0) ∧
    specGeoWeight (fun _ => 1)
      (calculateWeightedLogSum (fun _ => 0) ⟨1, [("tokenA", 1)], none⟩
        [⟨"tokenA", 1⟩] 0)
      (specMaxFiniteLogSum
        [calculateWeightedLogSum (fun _ => 0) ⟨1, [("tokenA", 1)], none⟩
          [⟨"tokenA", 1⟩] 0]) = JSNum.fin 1 ∧
    (JSNum.fin (0:ℚ)) ≠ JSNum.fin 1 := by
  refine ⟨?_, ?_, by simp⟩
  · norm_num +decide [calcGeometricUnnormalized, calculateWeightedLogSum, tokenLogLoop,
      calculateCoefficientsSum, mlogq, mexpq, jexp, jdiv, mapSet, List.lookup,
      show toString (1:ℤ) = "1" from rfl]
  · norm_num +decide [specGeoWeight, specMaxFiniteLogSum, calculateWeightedLogSum,
      tokenLogLoop, mlogq, mexpq, List.lookup]

/-- C3 amended: the geometric engine performs no max-logSum subtraction;
per strategy it exponentiates logSum / C: a finite nonzero logSum q
yields exp(q / C) as JS arithmetic, a logSum of exactly 0 yields weight
0 (not exp 0 = 1), and a logSum of minus-infinity yields weight 0
whenever C is positive. -/
theorem C3_geometric_divides_by_total_coefficient :
    ∀ (E L : ℚ → ℚ) (strats : List StrategyTokenWeight)
      (cs : List TokenCoefficient) (vc : ℚ) (s : StrategyTokenWeight),
      (strats.map (fun x => toString x.strategy)).Nodup → s ∈ strats →
      (∀ q : ℚ, q ≠ 0 → calculateWeightedLogSum L s cs vc = JSNum.fin q →
        (calcGeometricUnnormalized E L strats cs vc).lookup (toString s.strategy) =
          some (jexp E (jdivq q (calculateCoefficientsSum cs + vc)))) ∧
      (calculateWeightedLogSum L s cs vc = JSNum.fin 0 →
        (calcGeometricUnnormalized E L strats cs vc).lookup (toString s.strategy) =
          some (JSNum.fin 0)) ∧
      (calculateWeightedLogSum L s cs vc = JSNum.inf false →
        0 < calculateCoefficientsSum cs + vc →
        (calcGeometricUnnormalized E L strats cs vc).lookup (toString s.strategy) =
          some (JSNum.fin 0)) := by
  intro E L strats cs vc s hnd hs
  have hlk := foldl_mapSet_lookup (fun x : StrategyTokenWeight => toString x.strategy)
    (fun x => geoWeightOf E L cs vc x) strats hnd s hs
  refine ⟨?_, ?_, ?_⟩
  · intro q hq hlog
    rw [calcGeometricUnnormalized_eq, hlk]
    simp only [geoWeightOf, hlog]
    rw [if_pos (by simp [hq] : JSNum.fin q ≠ JSNum.fin 0)]
    rfl
  · intro hlog
    rw [calcGeometricUnnormalized_eq, hlk]
    simp only [geoWeightOf, hlog]
    rw [if_neg (by simp : ¬ JSNum.fin (0:ℚ) ≠ JSNum.fin 0)]
  · intro hlog hC
    rw [calcGeometricUnnormalized_eq, hlk]
    simp only [geoWeightOf, hlog]
    rw [if_pos (fun h => JSNum.noConfusion h), jdiv]
    rw [if_neg (ne_of_gt hC), decide_eq_true hC]
    rfl

/-- Witness for C3 amended: applied at a concrete strategy with finite
nonzero logSum. -/
theorem C3_geometric_witness :
    (calcGeometricUnnormalized (fun _ => 1) (fun _ => 5)
        [⟨1, [("tokenA", 2)], none⟩] [⟨"tokenA", 1⟩] 0).lookup "1" =
      some (jexp (fun _ => 1)
        (jdivq 5 (calculateCoefficientsSum [⟨"tokenA", 1⟩] + 0))) := by
  have h := (C3_geometric_divides_by_total_coefficient (fun _ => 1) (fun _ => 5)
    [⟨1, [("tokenA", 2)], none⟩] [⟨"tokenA", 1⟩] 0 ⟨1, [("tokenA", 2)], none⟩
    (by simp) (by simp)).1 5 (by norm_num)
    (by norm_num +decide [calculateWeightedLogSum, tokenLogLoop, mlogq, List.lookup])
  simpa [show toString (1:ℤ) = "1" from rfl] using h

/-! ## Claim C8 -/

/-- The token loop of the geometric logSum returns the early-exit value
(minus-infinity) as soon as any coefficient in the list is positive
while its token amount is missing or not positive, regardless of the
remaining coefficients and of the accumulator. -/
theorem tokenLogLoop_none_of_bad (L : ℚ → ℚ) (s : StrategyTokenWeight) :
    ∀ (cs : List TokenCoefficient),
    (∃ c ∈ cs, 0 < c.coefficient ∧
      (∀ a, s.tokens.lookup c.token = some a → ¬ 0 < a)) →
    ∀ (acc : ℚ), tokenLogLoop L s cs acc = none := by
  intro cs
  induction cs with
  | nil => rintro ⟨c, hc, _⟩ acc; cases hc
  | cons c' rest ih =>
      rintro ⟨c, hc, hpos, hbad⟩ acc
      rcases List.mem_cons.mp hc with rfl | hcrest
      · cases hl : s.tokens.lookup c.token with
        | none => simp [tokenLogLoop, hl, hpos]
        | some a =>
            have hna := hbad a hl
            simp [tokenLogLoop, hl, hna, hpos]
      · cases hl : s.tokens.lookup c'.token with
        | none =>
            by_cases hcc : 0 < c'.coefficient
            · simp [tokenLogLoop, hl, hcc]
            · simp only [tokenLogLoop, hl, if_neg hcc]
              exact ih ⟨c, hcrest, hpos, hbad⟩ acc
        | some a =>
            by_cases ha : 0 < a
            · simp only [tokenLogLoop, hl, if_pos ha]
              exact ih ⟨c, hcrest, hpos, hbad⟩ _
            · by_cases hcc : 0 < c'.coefficient
              · simp [tokenLogLoop, hl, ha, hcc]
              · simp only [tokenLogLoop, hl, if_neg ha, if_neg hcc]
                exact ih ⟨c, hcrest, hpos, hbad⟩ acc

theorem logSum_neg_inf_of_bad (L : ℚ → ℚ) (s : StrategyTokenWeight)
    (cs : List TokenCoefficient) (vc : ℚ)
    (hbad : ∃ c ∈ cs, 0 < c.coefficient ∧
      (∀ a, s.tokens.lookup c.token = some a → ¬ 0 < a)) :
    calculateWeightedLogSum L s cs vc = JSNum.inf false := by
  rw [calculateWeightedLogSum, tokenLogLoop_none_of_bad L s cs hbad 0]

theorem logSum_neg_inf_validator (L : ℚ → ℚ) (s : StrategyTokenWeight)
    (cs : List TokenCoefficient) (vc : ℚ) (hvc : 0 < vc)
    (hvb : ¬ 0 < s.validatorBalanceWeight.getD 0) :
    calculateWeightedLogSum L s cs vc = JSNum.inf false := by
  rw [calculateWeightedLogSum]
  cases tokenLogLoop L s cs 0 with
  | none => rfl
  | some q =>
      dsimp only
      rw [if_pos hvc, if_neg hvb]

theorem calculateCoefficientsSum_eq (cs : List TokenCoefficient) :
    calculateCoefficientsSum cs = (cs.map (fun c => c.coefficient)).sum := by
  rw [calculateCoefficientsSum,
    foldl_addlike _ (fun c => c.coefficient) (fun a x => rfl) cs 0, zero_add]

theorem geoWeightOf_neg_inf (E L : ℚ → ℚ) (cs : List TokenCoefficient) (vc : ℚ)
    (s : StrategyTokenWeight)
    (hlog : calculateWeightedLogSum L s cs vc = JSNum.inf false)
    (hC : 0 ≤ calculateCoefficientsSum cs + vc) :
    geoWeightOf E L cs vc s = JSNum.fin 0 := by
  simp only [geoWeightOf, hlog]
  rw [if_pos (fun h => JSNum.noConfusion h), jdiv]
  rcases eq_or_lt_of_le hC with hC0 | hCpos
  · rw [if_pos hC0.symm]
    rfl
  · rw [if_neg (ne_of_gt hCpos), decide_eq_true hCpos]
    rfl

theorem normalized_lookup_zero (m : List (String × JSNum))
    (h : ∀ p ∈ m, ∃ q, p.2 = JSNum.fin q)
    (hS : (m.map (fun p => finVal p.2)).sum ≠ 0) (k : String)
    (hk : m.lookup k = some (JSNum.fin 0)) :
    (normalizeWeights m).lookup k = some (JSNum.fin 0) := by
  rw [normalizeWeights_eq m h hS]
  rw [lookup_map_values (fun v => JSNum.fin (finVal v / (m.map (fun r => finVal r.2)).sum)) m k]
  rw [hk]
  simp [finVal]

/-- C8 counterexample: with coefficients [(tokenA, 5)] and a single
strategy that has no tokenA entry, the strategy's returned geometric
weight is NaN (0/0 in the final normalization), not exactly 0 as the
claim states. -/
theorem C8_counterexample :
    calcGeometricStrategyWeights (fun _ => 1) (fun _ => 0)
      [⟨1, [], none⟩] [⟨"tokenA", 5⟩] 0 = [("1", JSNum.nan)] ∧
    JSNum.nan ≠ JSNum.fin 0 := by
  refine ⟨?_, fun h => JSNum.noConfusion h⟩
  norm_num +decide [calcGeometricStrategyWeights, calcGeometricUnnormalized,
    normalizeWeights, calculateWeightedLogSum, tokenLogLoop, calculateCoefficientsSum,
    mlogq, mexpq, jexp, jdiv, jsum, jadd, mapSet, List.lookup,
    show toString (1:ℤ) = "1" from rfl]

/-- C8 amended: a positive coefficient whose token amount is zero or
absent makes the logSum minus-infinity immediately, regardless of the
remaining coefficients (and likewise a positive validator coefficient
with no positive validator balance); the strategy's unnormalized
geometric weight is then exactly 0 (given non-negative coefficients),
and its returned normalized weight is exactly 0 provided the sum of all
strategies' unnormalized weights is nonzero - when that sum is 0 the
returned weight is NaN, not 0. -/
theorem C8_missing_token_zero_product :
    ∀ (E L : ℚ → ℚ) (s : StrategyTokenWeight) (cs : List TokenCoefficient)
      (vc : ℚ) (strats : List StrategyTokenWeight),
      (strats.map (fun x => toString x.strategy)).Nodup → s ∈ strats →
      (∀ c ∈ cs, 0 ≤ c.coefficient) → 0 ≤ vc →
      ((0 < vc → ¬ 0 < s.validatorBalanceWeight.getD 0 →
        calculateWeightedLogSum L s cs vc = JSNum.inf false) ∧
      ((∃ c ∈ cs, 0 < c.coefficient ∧
          (∀ a, s.tokens.lookup c.token = some a → ¬ 0 < a)) →
        calculateWeightedLogSum L s cs vc = JSNum.inf false ∧
        (calcGeometricUnnormalized E L strats cs vc).lookup (toString s.strategy) =
          some (JSNum.fin 0) ∧
        (((calcGeometricUnnormalized E L strats cs vc).map
            (fun p => finVal p.2)).sum ≠ 0 →
          (calcGeometricStrategyWeights E L strats cs vc).lookup (toString s.strategy) =
            some (JSNum.fin 0)))) := by
  intro E L s cs vc strats hnd hs hcs hvc
  have hCge : 0 ≤ calculateCoefficientsSum cs + vc :=
    add_nonneg (coefficientsSum_nonneg cs hcs) hvc
  refine ⟨fun h1 h2 => logSum_neg_inf_validator L s cs vc h1 h2, ?_⟩
  intro hbad
  have hlog := logSum_neg_inf_of_bad L s cs vc hbad
  have hCpos : 0 < calculateCoefficientsSum cs + vc := by
    obtain ⟨c, hc, hcpos, _⟩ := hbad
    have hle : c.coefficient ≤ (cs.map (fun c => c.coefficient)).sum := by
      apply List.single_le_sum
      · intro x hx
        obtain ⟨c', hc', rfl⟩ := List.mem_map.mp hx
        exact hcs c' hc'
      · exact List.mem_map.mpr ⟨c, hc, rfl⟩
    calc (0:ℚ) < c.coefficient := hcpos
      _ ≤ (cs.map (fun c => c.coefficient)).sum := hle
      _ = calculateCoefficientsSum cs := (calculateCoefficientsSum_eq cs).symm
      _ ≤ calculateCoefficientsSum cs + vc := le_add_of_nonneg_right hvc
  have hlk := foldl_mapSet_lookup (fun x : StrategyTokenWeight => toString x.strategy)
    (fun x => geoWeightOf E L cs vc x) strats hnd s hs
  have hunnorm : (calcGeometricUnnormalized E L strats cs vc).lookup
      (toString s.strategy) = some (JSNum.fin 0) := by
    rw [calcGeometricUnnormalized_eq, hlk]
    dsimp only
    rw [geoWeightOf_neg_inf E L cs vc s hlog hCge]
  refine ⟨hlog, hunnorm, ?_⟩
  intro hS
  exact normalized_lookup_zero _ (geo_unnorm_allFin E L strats cs vc hCpos) hS _ hunnorm

/-- Witness for C8 amended: two strategies, one missing the token with
positive coefficient (weight exactly 0 after normalization), the other
holding it so that the normalization sum is nonzero. -/
theorem C8_missing_token_witness :
    calculateWeightedLogSum (fun _ => 1) ⟨1, [], none⟩ [⟨"tokenA", 5⟩] 0 =
      JSNum.inf false ∧
    (calcGeometricUnnormalized (fun _ => 1) (fun _ => 1)
      [⟨1, [], none⟩, ⟨2, [("tokenA", 4)], none⟩] [⟨"tokenA", 5⟩] 0).lookup "1" =
      some (JSNum.fin 0) ∧
    (calcGeometricStrategyWeights (fun _ => 1) (fun _ => 1)
      [⟨1, [], none⟩, ⟨2, [("tokenA", 4)], none⟩] [⟨"tokenA", 5⟩] 0).lookup "1" =
      some (JSNum.fin 0) := by
  have h := (C8_missing_token_zero_product (fun _ => 1) (fun _ => 1) ⟨1, [], none⟩
    [⟨"tokenA", 5⟩] 0 [⟨1, [], none⟩, ⟨2, [("tokenA", 4)], none⟩]
    (by decide) (by simp) (by norm_num) le_rfl).2
    ⟨⟨"tokenA", 5⟩, by simp, by norm_num, by simp [List.lookup]⟩
  obtain ⟨hlog, hunnorm, hnorm⟩ := h
  have hS : ((calcGeometricUnnormalized (fun _ => 1) (fun _ => 1)
      [⟨1, [], none⟩, ⟨2, [("tokenA", 4)], none⟩] [⟨"tokenA", 5⟩] 0).map
      (fun p => finVal p.2)).sum ≠ 0 := by
    norm_num +decide [calcGeometricUnnormalized, calculateWeightedLogSum, tokenLogLoop,
      calculateCoefficientsSum, mlogq, mexpq, jexp, jdiv, mapSet, finVal, List.lookup,
      show toString (1:ℤ) = "1" from rfl, show toString (2:ℤ) = "2" from rfl]
  exact ⟨hlog, by simpa [show toString (1:ℤ) = "1" from rfl] using hunnorm,
    by simpa [show toString (1:ℤ) = "1" from rfl] using hnorm hS⟩

/-! ## Claim C7 -/

/-- C7 counterexample: the weighted-mean engine looks tokens up with the
exact (case-sensitive) key: a coefficient for 0xAB contributes nothing
to a strategy holding 0xab (amount 10), while the exact-case
coefficient contributes 10, even though the two addresses agree after
lower-casing. -/
theorem C7_counterexample :
    jsToLower "0xAB" = jsToLower "0xab" ∧
    calculateWeightTotals ⟨1, [("0xab", 10)], none⟩ [⟨"0xAB", 1⟩] 0 = 0 ∧
    calculateWeightTotals ⟨1, [("0xab", 10)], none⟩ [⟨"0xab", 1⟩] 0 = 10 ∧
    (0 : ℚ) ≠ 10 := by
  refine ⟨by decide, ?_, ?_, by norm_num⟩
  · norm_num +decide [calculateWeightTotals, List.lookup]
  · norm_num +decide [calculateWeightTotals, List.lookup]

/-- C7 amended: only the Risk-Normalized engine lower-cases token
identifiers before lookups; the Weighted-Mean engine uses exact
case-sensitive object-key lookup, so a coefficient whose token differs
from every strategy key (even only by letter case) contributes nothing
to the strategy's total, while the risk engine matches a strategy token
0xTOK against a configured token 0xtok. -/
theorem C7_risk_engine_lowercases :
    (∀ (s : StrategyTokenWeight) (cs : List TokenCoefficient) (vc : ℚ),
      (∀ c ∈ cs, s.tokens.lookup c.token = none) →
      calculateWeightTotals s cs vc = (s.validatorBalanceWeight.getD 0) * vc) ∧
    calculateSimulationParticipantWeights (fun _ => 1) [⟨"1", []⟩]
      [⟨some "1", none, [⟨"0xTOK", none, some 400⟩], none⟩] [⟨"0xtok", 1⟩] =
      [⟨"1", [("0xtok", 1)], none⟩] := by
  constructor
  · intro s cs vc hnone
    simp only [calculateWeightTotals]
    have hfold : ∀ (l : List TokenCoefficient),
        (∀ c ∈ l, s.tokens.lookup c.token = none) → ∀ (a : ℚ),
        l.foldl (fun sum coeff =>
          match s.tokens.lookup coeff.token with
          | some amount => if 0 < amount then sum + amount * coeff.coefficient else sum
          | none => sum) a = a := by
      intro l
      induction l with
      | nil => intro _ a; rfl
      | cons c rest ih =>
          intro hl a
          rw [List.foldl_cons]
          have hc := hl c (List.mem_cons_self c rest)
          rw [hc]
          exact ih (fun c' hc' => hl c' (List.mem_cons_of_mem c hc')) a
    rw [hfold cs hnone 0, zero_add]
  · norm_num +decide [calculateSimulationParticipantWeights, initPass,
      riskByTokenAndStrategy, tokenAddresses, processToken, tempWeightsFor,
      tempWeightOne, totalObligatedFor, totalOne, allowedTokensFor,
      originalTokensWithWeights,
      tokensWithWeightsOf, allConfiguredTokens, tokenRisksOf, riskLookup, findTW,
      jsDedup, jsToLower, jsCharToLower, mexpq, mapSet, entrySet, pushWeight, setVbw,
      validatorPass, getStrategyId, strTruthy, List.lookup, List.filter, List.find?,
      Char.ofNat]

/-- Witness for C7 amended: the weighted-mean part applied at a strategy
whose only key differs from the coefficient token by case. -/
theorem C7_risk_engine_lowercases_witness :
    calculateWeightTotals ⟨1, [("0xab", 10)], some 3⟩ [⟨"0xAB", 1⟩] 5 = 3 * 5 := by
  have h := C7_risk_engine_lowercases.1 ⟨1, [("0xab", 10)], some 3⟩ [⟨"0xAB", 1⟩] 5
    (by intro c hc; rcases List.mem_singleton.mp hc with rfl; decide)
  simpa using h

/-! ## Risk-engine lemma layer -/

/-- Ids of the entries of a strategy weights map. -/
def entryIds (m : List SimEntry) : List String := m.map (fun e => e.id)

/-- Sum of the weights recorded for one token in one entry. -/
def colWeight (e : SimEntry) (t : String) : ℚ :=
  ((e.tokenWeights.filter (fun p => p.1 = t)).map (fun p => p.2)).sum

/-- Sum of one token's weight column across all entries of the map. -/
def columnSum (m : List SimEntry) (t : String) : ℚ :=
  (m.map (fun e => colWeight e t)).sum

theorem colWeight_append (e : SimEntry) (p : String × ℚ)
    (t : String) :
    colWeight ⟨e.id, e.tokenWeights ++ [p], e.validatorBalanceWeight⟩ t =
      colWeight e t + (if p.1 = t then p.2 else 0) := by
  simp only [colWeight, List.filter_append, List.map_append, List.sum_append]
  congr 1
  by_cases hp : p.1 = t
  · simp [List.filter, hp]
  · simp [List.filter, hp]

theorem pushWeight_entryIds (m : List SimEntry) (sid : String) (p : String × ℚ) :
    entryIds (pushWeight m sid p) = entryIds m := by
  simp only [entryIds, pushWeight, List.map_map]
  apply List.map_congr_left
  intro e _
  by_cases he : e.id = sid <;> simp [he]

theorem setVbw_entryIds (m : List SimEntry) (sid : String) (v : ℚ) :
    entryIds (setVbw m sid v) = entryIds m := by
  simp only [entryIds, setVbw, List.map_map]
  apply List.map_congr_left
  intro e _
  by_cases he : e.id = sid <;> simp [he]

theorem columnSum_pushWeight_ne (m : List SimEntry) (sid : String)
    (p : String × ℚ) (t : String) (hne : p.1 ≠ t) :
    columnSum (pushWeight m sid (p.1, p.2)) t = columnSum m t := by
  simp only [columnSum, pushWeight, List.map_map]
  apply congrArg List.sum
  apply List.map_congr_left
  intro e _
  by_cases he : e.id = sid
  · simp only [Function.comp, he, if_pos rfl]
    have := colWeight_append e (p.1, p.2) t
    simp only [if_neg hne, add_zero] at this
    exact this
  · simp [Function.comp, he]

theorem pushWeight_not_mem (m : List SimEntry) (sid : String) (p : String × ℚ)
    (h : sid ∉ entryIds m) : pushWeight m sid p = m := by
  induction m with
  | nil => rfl
  | cons e rest ih =>
      have h1 : e.id ≠ sid := fun he =>
        h (by simp [entryIds, he])
      have h2 : sid ∉ entryIds rest := fun hr => h (by simp [entryIds] at hr ⊢; tauto)
      simp only [pushWeight, List.map_cons, if_neg h1]
      have := ih h2
      simp only [pushWeight] at this
      rw [this]

theorem columnSum_cons (e : SimEntry) (rest : List SimEntry) (t : String) :
    columnSum (e :: rest) t = colWeight e t + columnSum rest t := by
  simp [columnSum]

theorem columnSum_pushWeight_self (m : List SimEntry) (sid : String) (w : ℚ)
    (t : String) (hmem : sid ∈ entryIds m) (hnd : (entryIds m).Nodup) :
    columnSum (pushWeight m sid (t, w)) t = columnSum m t + w := by
  induction m with
  | nil => cases hmem
  | cons e rest ih =>
      have hids : entryIds (e :: rest) = e.id :: entryIds rest := rfl
      rw [hids] at hmem hnd
      by_cases he : e.id = sid
      · have hnotin : sid ∉ entryIds rest := by
          rw [List.nodup_cons] at hnd
          rw [← he]
          exact hnd.1
        simp only [pushWeight, List.map_cons, if_pos he]
        have hrest : pushWeight rest sid (t, w) = rest := pushWeight_not_mem rest sid _ hnotin
        simp only [pushWeight] at hrest
        rw [hrest, columnSum_cons, columnSum_cons]
        have := colWeight_append e (t, w) t
        rw [if_pos rfl] at this
        rw [this]
        ring
      · have hmem' : sid ∈ entryIds rest := by
          rcases List.mem_cons.mp hmem with h1 | h2
          · exact absurd h1.symm he
          · exact h2
        have hnd' : (entryIds rest).Nodup := (List.nodup_cons.mp hnd).2
        simp only [pushWeight, List.map_cons, if_neg he]
        rw [columnSum_cons]
        have ihr := ih hmem' hnd'
        simp only [pushWeight] at ihr
        rw [ihr, columnSum_cons]
        ring

theorem columnSum_setVbw (m : List SimEntry) (sid : String) (v : ℚ) (t : String) :
    columnSum (setVbw m sid v) t = columnSum m t := by
  simp only [columnSum, setVbw, List.map_map]
  apply congrArg List.sum
  apply List.map_congr_left
  intro e _
  by_cases he : e.id = sid <;> simp [Function.comp, he, colWeight]

theorem columnSum_validatorPass (strats : List UIStrategy) (t : String) :
    ∀ (m : List SimEntry), columnSum (validatorPass strats m) t = columnSum m t := by
  induction strats with
  | nil => intro m; rfl
  | cons s rest ih =>
      intro m
      rw [validatorPass, List.foldl_cons]
      cases getStrategyId s with
      | none =>
          have := ih m
          rw [validatorPass] at this
          exact this
      | some sid =>
          cases s.validatorBalanceWeight with
          | none =>
              have := ih m
              rw [validatorPass] at this
              exact this
          | some v =>
              have := ih (setVbw m sid v)
              rw [validatorPass] at this
              rw [this, columnSum_setVbw]

theorem processToken_entryIds (E : ℚ → ℚ) (apiData : List ApiStrategy)
    (tcs : List TokenCoefficient) (strats : List UIStrategy)
    (risks : List (String × List (String × ℚ))) (t : String) :
    ∀ (m : List SimEntry),
    entryIds (processToken E apiData tcs strats risks m t) = entryIds m := by
  intro m
  rw [processToken]
  dsimp only
  split
  · rfl
  · have hfold : ∀ (tmp : List (String × ℚ)) (m' : List SimEntry) (c : ℚ),
        entryIds (tmp.foldl (fun acc p => pushWeight acc p.1 (t, p.2 * c)) m') =
          entryIds m' := by
      intro tmp
      induction tmp with
      | nil => intro m' c; rfl
      | cons p rest ih =>
          intro m' c
          rw [List.foldl_cons, ih, pushWeight_entryIds]
    exact hfold _ m _

theorem columnSum_processToken_ne (E : ℚ → ℚ) (apiData : List ApiStrategy)
    (tcs : List TokenCoefficient) (strats : List UIStrategy)
    (risks : List (String × List (String × ℚ))) (t' t : String) (hne : t' ≠ t) :
    ∀ (m : List SimEntry),
    columnSum (processToken E apiData tcs strats risks m t') t = columnSum m t := by
  intro m
  rw [processToken]
  dsimp only
  split
  · rfl
  · have hfold : ∀ (tmp : List (String × ℚ)) (m' : List SimEntry) (c : ℚ),
        columnSum (tmp.foldl (fun acc p => pushWeight acc p.1 (t', p.2 * c)) m') t =
          columnSum m' t := by
      intro tmp
      induction tmp with
      | nil => intro m' c; rfl
      | cons p rest ih =>
          intro m' c
          rw [List.foldl_cons, ih]
          exact columnSum_pushWeight_ne m' p.1 (t', p.2 * c) t hne
    exact hfold _ m _

/-- Elements of a per-strategy tempWeights contribution: the recorded id
is the strategy's valid id and the recorded term is the risk-decay
formula with the hard-coded beta 1/20 and the risk floored at 1. -/
theorem tempWeightOne_mem (E : ℚ → ℚ) (apiData : List ApiStrategy)
    (tcs : List TokenCoefficient) (risks : List (String × List (String × ℚ)))
    (t : String) (T : ℕ) (s : UIStrategy) (p : String × ℚ)
    (hp : p ∈ tempWeightOne E apiData tcs risks t T s) :
    getStrategyId s = some p.1 ∧
    t ∈ allowedTokensFor apiData tcs p.1 ∧
    ∃ tw, findTW s t = some tw ∧ ∃ d, tw.depositAmount = some d ∧ d ≠ 0 ∧
      p.2 = ((d : ℚ) / (T : ℚ)) * mexpq E (-(1/20) * max 1 (riskLookup risks t p.1)) := by
  rw [tempWeightOne] at hp
  split at hp
  next => cases hp
  next sid hid =>
    split at hp
    next hall =>
      split at hp
      next tw htw =>
        split at hp
        next d hd =>
          split at hp
          next => cases hp
          next hd0 =>
            rcases List.mem_singleton.mp hp with rfl
            exact ⟨hid, hall, tw, htw, d, hd, hd0, rfl⟩
        next hd => cases hp
      next htw => cases hp
    next hall => cases hp

theorem tempWeightsFor_mem (E : ℚ → ℚ) (apiData : List ApiStrategy)
    (tcs : List TokenCoefficient) (strats : List UIStrategy)
    (risks : List (String × List (String × ℚ))) (t : String) (T : ℕ)
    (p : String × ℚ) (hp : p ∈ tempWeightsFor E apiData tcs strats risks t T) :
    ∃ s ∈ strats, p ∈ tempWeightOne E apiData tcs risks t T s := by
  rw [tempWeightsFor] at hp
  obtain ⟨lp, hlp, hplp⟩ := List.mem_flatten.mp hp
  obtain ⟨s, hshs, rfl⟩ := List.mem_map.mp hlp
  exact ⟨s, hshs, hplp⟩

theorem tempWeightsFor_pos (E : ℚ → ℚ) (apiData : List ApiStrategy)
    (tcs : List TokenCoefficient) (strats : List UIStrategy)
    (risks : List (String × List (String × ℚ))) (t : String) (T : ℕ)
    (hE : ∀ q, 0 < E q) (hT : T ≠ 0) :
    ∀ p ∈ tempWeightsFor E apiData tcs strats risks t T, 0 < p.2 := by
  intro p hp
  obtain ⟨s, _, hone⟩ := tempWeightsFor_mem E apiData tcs strats risks t T p hp
  obtain ⟨_, _, tw, _, d, _, hd0, hterm⟩ :=
    tempWeightOne_mem E apiData tcs risks t T s p hone
  rw [hterm]
  apply mul_pos
  · apply div_pos
    · exact_mod_cast Nat.pos_of_ne_zero hd0
    · exact_mod_cast Nat.pos_of_ne_zero hT
  · rw [mexpq]
    split
    · norm_num
    · exact hE _

/-- A strategy contributing a nonzero amount to the total obligated
balance contributes a (positive under hE) term to tempWeights. -/
theorem totalOne_ne_zero_temp (E : ℚ → ℚ) (apiData : List ApiStrategy)
    (tcs : List TokenCoefficient) (risks : List (String × List (String × ℚ)))
    (t : String) (T : ℕ) (s : UIStrategy)
    (h : totalOne apiData tcs t s ≠ 0) :
    tempWeightOne E apiData tcs risks t T s ≠ [] := by
  rw [totalOne] at h
  rw [tempWeightOne]
  split at h
  next hid => exact absurd rfl h
  next sid hid =>
    split at h
    next hall =>
      rw [if_pos hall]
      split at h
      next tw htw =>
        cases hd : tw.depositAmount with
        | none => rw [hd, Option.getD_none] at h; exact absurd rfl h
        | some d =>
            simp only [hd, Option.getD_some] at h
            simp only [hd]
            rw [if_neg h]
            exact fun hc => List.noConfusion hc
      next htw => exact absurd rfl h
    next hall => exact absurd rfl h

theorem total_ne_zero_temp_ne_nil (E : ℚ → ℚ) (apiData : List ApiStrategy)
    (tcs : List TokenCoefficient) (strats : List UIStrategy)
    (risks : List (String × List (String × ℚ))) (t : String) (T : ℕ)
    (hT : totalObligatedFor apiData tcs strats t ≠ 0) :
    tempWeightsFor E apiData tcs strats risks t T ≠ [] := by
  rw [totalObligatedFor] at hT
  have hex : ∃ s ∈ strats, totalOne apiData tcs t s ≠ 0 := by
    by_contra hall
    push_neg at hall
    exact hT (List.sum_eq_zero (by
      intro x hx
      obtain ⟨s, hs, rfl⟩ := List.mem_map.mp hx
      exact hall s hs))
  obtain ⟨s, hs, hone⟩ := hex
  have hne := totalOne_ne_zero_temp E apiData tcs risks t T s hone
  rw [tempWeightsFor]
  intro hnil
  apply hne
  cases hcase : tempWeightOne E apiData tcs risks t T s with
  | nil => rfl
  | cons p rest =>
      exfalso
      have hmem : p ∈ (strats.map (tempWeightOne E apiData tcs risks t T)).flatten :=
        List.mem_flatten.mpr ⟨_, List.mem_map.mpr ⟨s, hs, rfl⟩, by rw [hcase]; exact List.mem_cons_self p rest⟩
      rw [hnil] at hmem
      cases hmem

theorem normalizationDenominator_pos (E : ℚ → ℚ) (apiData : List ApiStrategy)
    (tcs : List TokenCoefficient) (strats : List UIStrategy)
    (risks : List (String × List (String × ℚ))) (t : String)
    (hE : ∀ q, 0 < E q) (hT : totalObligatedFor apiData tcs strats t ≠ 0) :
    0 < ((tempWeightsFor E apiData tcs strats risks t
      (totalObligatedFor apiData tcs strats t)).map (fun p => p.2)).sum := by
  apply List.sum_pos
  · intro x hx
    obtain ⟨p, hp, rfl⟩ := List.mem_map.mp hx
    exact tempWeightsFor_pos E apiData tcs strats risks t _ hE hT p hp
  · intro hmap
    exact total_ne_zero_temp_ne_nil E apiData tcs strats risks t _ hT
      (List.map_eq_nil_iff.mp hmap)

theorem jsDedup_mem (l : List String) (x : String) : x ∈ jsDedup l ↔ x ∈ l := by
  induction l using jsDedup.induct with
  | case1 => simp [jsDedup]
  | case2 y ys ih =>
      rw [jsDedup]
      simp only [List.mem_cons, ih, List.mem_filter]
      constructor
      · rintro (rfl | ⟨h1, _⟩)
        · exact Or.inl rfl
        · exact Or.inr h1
      · rintro (rfl | h)
        · exact Or.inl rfl
        · by_cases hxy : x = y
          · exact Or.inl hxy
          · exact Or.inr ⟨h, by simp [hxy]⟩

theorem jsDedup_nodup (l : List String) : (jsDedup l).Nodup := by
  induction l using jsDedup.induct with
  | case1 => simp [jsDedup]
  | case2 y ys ih =>
      rw [jsDedup]
      rw [List.nodup_cons]
      refine ⟨?_, ih⟩
      intro hmem
      rw [jsDedup_mem] at hmem
      rw [List.mem_filter] at hmem
      simp at hmem

theorem entrySet_entryIds_mem (m : List SimEntry) (e : SimEntry) (x : String) :
    x ∈ entryIds (entrySet m e) ↔ x ∈ entryIds m ∨ x = e.id := by
  induction m with
  | nil => simp [entrySet, entryIds]
  | cons e' rest ih =>
      rw [entrySet]
      by_cases he : e'.id = e.id
      · rw [if_pos he]
        simp only [entryIds, List.map_cons, List.mem_cons]
        simp only [entryIds] at ih
        constructor
        · rintro (rfl | h)
          · exact Or.inr rfl
          · exact Or.inl (Or.inr h)
        · rintro ((h | h) | rfl)
          · exact Or.inl (h.trans he)
          · exact Or.inr h
          · exact Or.inl rfl
      · rw [if_neg he]
        simp only [entryIds, List.map_cons, List.mem_cons]
        simp only [entryIds] at ih
        rw [ih]
        tauto

theorem entrySet_nodup (m : List SimEntry) (e : SimEntry)
    (h : (entryIds m).Nodup) : (entryIds (entrySet m e)).Nodup := by
  induction m with
  | nil => simp [entrySet, entryIds]
  | cons e' rest ih =>
      rw [entrySet]
      simp only [entryIds, List.map_cons, List.nodup_cons] at h
      by_cases he : e'.id = e.id
      · simp only [if_pos he, entryIds, List.map_cons, List.nodup_cons]
        exact ⟨he ▸ h.1, h.2⟩
      · simp only [if_neg he, entryIds, List.map_cons, List.nodup_cons]
        refine ⟨?_, ih h.2⟩
        intro hmem
        have hmem' : e'.id ∈ entryIds (entrySet rest e) := hmem
        rw [entrySet_entryIds_mem] at hmem'
        rcases hmem' with h1 | h2
        · exact h.1 h1
        · exact he h2

theorem entrySet_val (P : SimEntry → Prop) (m : List SimEntry) (e : SimEntry)
    (hm : ∀ x ∈ m, P x) (he : P e) : ∀ x ∈ entrySet m e, P x := by
  induction m with
  | nil =>
      intro x hx
      rcases List.mem_singleton.mp hx with rfl
      exact he
  | cons e' rest ih =>
      rw [entrySet]
      by_cases hid : e'.id = e.id
      · rw [if_pos hid]
        intro x hx
        rcases List.mem_cons.mp hx with rfl | h2
        · exact he
        · exact hm x (List.mem_cons_of_mem _ h2)
      · rw [if_neg hid]
        intro x hx
        rcases List.mem_cons.mp hx with rfl | h2
        · exact hm x (List.mem_cons_self _ _)
        · exact ih (fun y hy => hm y (List.mem_cons_of_mem _ hy)) x h2

theorem initFold_nodup (l : List UIStrategy) :
    ∀ (m : List SimEntry), (entryIds m).Nodup →
    (entryIds (l.foldl (fun m s =>
      match getStrategyId s with
      | none => m
      | some strategyId => entrySet m ⟨strategyId, [], none⟩) m)).Nodup := by
  induction l with
  | nil => intro m hm; exact hm
  | cons s rest ih =>
      intro m hm
      rw [List.foldl_cons]
      cases getStrategyId s with
      | none => exact ih m hm
      | some sid => exact ih _ (entrySet_nodup m _ hm)

theorem initFold_mem (l : List UIStrategy) :
    ∀ (m : List SimEntry) (sid : String),
    (sid ∈ entryIds m ∨ ∃ s ∈ l, getStrategyId s = some sid) →
    sid ∈ entryIds (l.foldl (fun m s =>
      match getStrategyId s with
      | none => m
      | some strategyId => entrySet m ⟨strategyId, [], none⟩) m) := by
  induction l with
  | nil =>
      intro m sid h
      rcases h with h1 | ⟨s, hs, _⟩
      · exact h1
      · cases hs
  | cons s rest ih =>
      intro m sid h
      rw [List.foldl_cons]
      cases hid : getStrategyId s with
      | none =>
          apply ih
          rcases h with h1 | ⟨s', hs', hid'⟩
          · exact Or.inl h1
          · rcases List.mem_cons.mp hs' with rfl | h2
            · rw [hid] at hid'; cases hid'
            · exact Or.inr ⟨s', h2, hid'⟩
      | some sid' =>
          apply ih
          rcases h with h1 | ⟨s', hs', hid'⟩
          · exact Or.inl ((entrySet_entryIds_mem m _ sid).mpr (Or.inl h1))
          · rcases List.mem_cons.mp hs' with rfl | h2
            · rw [hid] at hid'
              cases hid'
              exact Or.inl ((entrySet_entryIds_mem m _ sid).mpr (Or.inr rfl))
            · exact Or.inr ⟨s', h2, hid'⟩

theorem initFold_entries (l : List UIStrategy) :
    ∀ (m : List SimEntry),
    (∀ e ∈ m, e.tokenWeights = [] ∧ e.validatorBalanceWeight = none) →
    ∀ e ∈ l.foldl (fun m s =>
      match getStrategyId s with
      | none => m
      | some strategyId => entrySet m ⟨strategyId, [], none⟩) m,
      e.tokenWeights = [] ∧ e.validatorBalanceWeight = none := by
  induction l with
  | nil => intro m hm; exact hm
  | cons s rest ih =>
      intro m hm
      rw [List.foldl_cons]
      cases getStrategyId s with
      | none => exact ih m hm
      | some sid =>
          exact ih _ (entrySet_val _ m _ hm ⟨rfl, rfl⟩)

theorem initPass_nodup (strats : List UIStrategy) :
    (entryIds (initPass strats)).Nodup :=
  initFold_nodup strats [] (by simp [entryIds])

theorem initPass_mem (strats : List UIStrategy) (sid : String)
    (h : ∃ s ∈ strats, getStrategyId s = some sid) :
    sid ∈ entryIds (initPass strats) :=
  initFold_mem strats [] sid (Or.inr h)

theorem initPass_entries (strats : List UIStrategy) :
    ∀ e ∈ initPass strats, e.tokenWeights = [] ∧ e.validatorBalanceWeight = none :=
  initFold_entries strats [] (fun e he => absurd he (List.not_mem_nil e))

theorem columnSum_initPass (strats : List UIStrategy) (t : String) :
    columnSum (initPass strats) t = 0 := by
  rw [columnSum]
  apply List.sum_eq_zero
  intro x hx
  obtain ⟨e, he, rfl⟩ := List.mem_map.mp hx
  have := (initPass_entries strats e he).1
  simp [colWeight, this]

theorem columnSum_push_fold (t : String) (c : ℚ) (tmp : List (String × ℚ)) :
    ∀ (m : List SimEntry), (entryIds m).Nodup → (∀ p ∈ tmp, p.1 ∈ entryIds m) →
    columnSum (tmp.foldl (fun acc p => pushWeight acc p.1 (t, p.2 * c)) m) t =
      columnSum m t + (tmp.map (fun p => p.2)).sum * c := by
  induction tmp with
  | nil => intro m _ _; simp
  | cons p rest ih =>
      intro m hnd hsub
      rw [List.foldl_cons]
      have hids : entryIds (pushWeight m p.1 (t, p.2 * c)) = entryIds m :=
        pushWeight_entryIds m p.1 (t, p.2 * c)
      rw [ih (pushWeight m p.1 (t, p.2 * c)) (hids ▸ hnd)
        (fun q hq => hids ▸ hsub q (List.mem_cons_of_mem p hq))]
      rw [columnSum_pushWeight_self m p.1 (p.2 * c) t
        (hsub p (List.mem_cons_self p rest)) hnd]
      rw [List.map_cons, List.sum_cons]
      ring

theorem columnSum_processToken_self (E : ℚ → ℚ) (apiData : List ApiStrategy)
    (tcs : List TokenCoefficient) (strats : List UIStrategy)
    (risks : List (String × List (String × ℚ))) (t : String) (m : List SimEntry)
    (hE : ∀ q, 0 < E q)
    (hT : totalObligatedFor apiData tcs strats t ≠ 0)
    (hnd : (entryIds m).Nodup)
    (hsub : ∀ sid : String, (∃ s ∈ strats, getStrategyId s = some sid) →
      sid ∈ entryIds m) :
    columnSum (processToken E apiData tcs strats risks m t) t = columnSum m t + 1 := by
  rw [processToken]
  dsimp only
  rw [if_neg hT]
  have hpos := normalizationDenominator_pos E apiData tcs strats risks t hE hT
  have hsub' : ∀ p ∈ tempWeightsFor E apiData tcs strats risks t
      (totalObligatedFor apiData tcs strats t), p.1 ∈ entryIds m := by
    intro p hp
    obtain ⟨s, hs, hone⟩ := tempWeightsFor_mem E apiData tcs strats risks t _ p hp
    obtain ⟨hid, _, _⟩ := tempWeightOne_mem E apiData tcs risks t _ s p hone
    exact hsub p.1 ⟨s, hs, hid⟩
  rw [columnSum_push_fold t _ _ m hnd hsub']
  rw [if_neg (ne_of_gt hpos)]
  rw [mul_one_div, div_self (ne_of_gt hpos)]

theorem columnSum_fold_not_mem (E : ℚ → ℚ) (apiData : List ApiStrategy)
    (tcs : List TokenCoefficient) (strats : List UIStrategy)
    (risks : List (String × List (String × ℚ))) (t : String)
    (addrs : List String) (h : t ∉ addrs) :
    ∀ (m : List SimEntry),
    columnSum (addrs.foldl (processToken E apiData tcs strats risks) m) t =
      columnSum m t := by
  induction addrs with
  | nil => intro m; rfl
  | cons a rest ih =>
      intro m
      rw [List.foldl_cons]
      have ha : a ≠ t := fun hat => h (hat ▸ List.mem_cons_self a rest)
      rw [ih (fun hr => h (List.mem_cons_of_mem a hr))]
      exact columnSum_processToken_ne E apiData tcs strats risks a t ha m

theorem fold_processToken_entryIds (E : ℚ → ℚ) (apiData : List ApiStrategy)
    (tcs : List TokenCoefficient) (strats : List UIStrategy)
    (risks : List (String × List (String × ℚ))) (addrs : List String) :
    ∀ (m : List SimEntry),
    entryIds (addrs.foldl (processToken E apiData tcs strats risks) m) =
      entryIds m := by
  induction addrs with
  | nil => intro m; rfl
  | cons a rest ih =>
      intro m
      rw [List.foldl_cons, ih, processToken_entryIds]

theorem columnSum_fold_main (E : ℚ → ℚ) (apiData : List ApiStrategy)
    (tcs : List TokenCoefficient) (strats : List UIStrategy)
    (risks : List (String × List (String × ℚ))) (t : String)
    (addrs : List String) :
    ∀ (m : List SimEntry), addrs.Nodup → t ∈ addrs →
    (∀ q, 0 < E q) → totalObligatedFor apiData tcs strats t ≠ 0 →
    (entryIds m).Nodup →
    (∀ sid : String, (∃ s ∈ strats, getStrategyId s = some sid) →
      sid ∈ entryIds m) →
    columnSum (addrs.foldl (processToken E apiData tcs strats risks) m) t =
      columnSum m t + 1 := by
  induction addrs with
  | nil => intro m _ hmem; cases hmem
  | cons a rest ih =>
      intro m hnd hmem hE hT hndm hsub
      rw [List.foldl_cons]
      by_cases hat : a = t
      · subst hat
        have hnotin : a ∉ rest := (List.nodup_cons.mp hnd).1
        rw [columnSum_fold_not_mem E apiData tcs strats risks a rest hnotin]
        exact columnSum_processToken_self E apiData tcs strats risks a m hE hT hndm hsub
      · have hmem' : t ∈ rest := by
          rcases List.mem_cons.mp hmem with h1 | h2
          · exact absurd h1.symm hat
          · exact h2
        have hids := processToken_entryIds E apiData tcs strats risks a m
        rw [ih (processToken E apiData tcs strats risks m a)
          (List.nodup_cons.mp hnd).2 hmem' hE hT (hids ▸ hndm)
          (fun sid hsid => hids ▸ hsub sid hsid)]
        rw [columnSum_processToken_ne E apiData tcs strats risks a t hat m]

/-! ## Claim C2 -/

/-- C2 amended: whenever the corresponding denominators are nonzero
(total coefficient mass for the means, and the per-token normalization
data for the risk engine with a positive exp model), the returned
weights sum to exactly 1: for each of the three mean engines the sum of
the returned map values is 1, and for the risk-normalized engine each
processed token's weight column across all strategies sums to 1.  (The
original claim's zero-total clause fails: a zero total makes the means
return NaN, not 0 - see the counterexample.) -/
theorem C2_weights_sum_to_one :
    (∀ (strats : List StrategyTokenWeight) (cs : List TokenCoefficient) (vc : ℚ),
      calculateCoefficientsSum cs + vc ≠ 0 →
      ((calcArithmeticUnnormalized strats cs vc).map (fun p => finVal p.2)).sum ≠ 0 →
      jsum ((calcArithmeticStrategyWeights strats cs vc).map (fun p => p.2)) =
        JSNum.fin 1) ∧
    (∀ (strats : List StrategyTokenWeight) (cs : List TokenCoefficient) (vc : ℚ),
      ((calcHarmonicUnnormalized strats cs vc).map (fun p => finVal p.2)).sum ≠ 0 →
      jsum ((calcHarmonicStrategyWeights strats cs vc).map (fun p => p.2)) =
        JSNum.fin 1) ∧
    (∀ (E L : ℚ → ℚ) (strats : List StrategyTokenWeight)
      (cs : List TokenCoefficient) (vc : ℚ),
      0 < calculateCoefficientsSum cs + vc →
      ((calcGeometricUnnormalized E L strats cs vc).map (fun p => finVal p.2)).sum ≠ 0 →
      jsum ((calcGeometricStrategyWeights E L strats cs vc).map (fun p => p.2)) =
        JSNum.fin 1) ∧
    (∀ (E : ℚ → ℚ) (apiData : List ApiStrategy) (tcs : List TokenCoefficient)
      (strats : List UIStrategy) (t : String),
      (∀ q, 0 < E q) →
      t ∈ tokenAddresses apiData tcs strats →
      totalObligatedFor apiData tcs strats t ≠ 0 →
      columnSum (calculateSimulationParticipantWeights E apiData strats tcs) t = 1) := by
  refine ⟨?_, ?_, ?_, ?_⟩
  · intro strats cs vc hC hS
    exact normalizeWeights_sum_one _ (arith_unnorm_allFin strats cs vc hC) hS
  · intro strats cs vc hS
    exact normalizeWeights_sum_one _ (harm_unnorm_allFin strats cs vc) hS
  · intro E L strats cs vc hC hS
    exact normalizeWeights_sum_one _ (geo_unnorm_allFin E L strats cs vc hC) hS
  · intro E apiData tcs strats t hE hmem hT
    rw [calculateSimulationParticipantWeights]
    rw [columnSum_validatorPass]
    have hnd : (tokenAddresses apiData tcs strats).Nodup := by
      rw [tokenAddresses]
      exact jsDedup_nodup _
    rw [columnSum_fold_main E apiData tcs strats
      (riskByTokenAndStrategy apiData tcs strats) t (tokenAddresses apiData tcs strats)
      (initPass strats) hnd hmem hE hT (initPass_nodup strats)
      (fun sid hsid => initPass_mem strats sid hsid)]
    rw [columnSum_initPass]
    ring

/-- Witness for C2 amended: concrete nondegenerate inputs for all four
conjuncts. -/
theorem C2_weights_sum_to_one_witness :
    jsum ((calcArithmeticStrategyWeights [⟨1, [("a", 2)], none⟩] [⟨"a", 1⟩] 0).map
      (fun p => p.2)) = JSNum.fin 1 ∧
    jsum ((calcHarmonicStrategyWeights [⟨1, [("a", 2)], none⟩] [⟨"a", 1⟩] 0).map
      (fun p => p.2)) = JSNum.fin 1 ∧
    jsum ((calcGeometricStrategyWeights (fun _ => 1) (fun _ => 5)
      [⟨1, [("a", 2)], none⟩] [⟨"a", 1⟩] 0).map (fun p => p.2)) = JSNum.fin 1 ∧
    columnSum (calculateSimulationParticipantWeights (fun _ => 1) [⟨"1", []⟩]
      [⟨some "1", none, [⟨"0xtok", none, some 400⟩], none⟩] [⟨"0xtok", 1⟩])
      "0xtok" = 1 := by
  refine ⟨?_, ?_, ?_, ?_⟩
  · apply C2_weights_sum_to_one.1
    · norm_num [calculateCoefficientsSum]
    · norm_num +decide [calcArithmeticUnnormalized, calculateCoefficientsSum,
        calculateWeightTotals, jdivq, jdiv, mapSet, finVal, List.lookup,
        show toString (1:ℤ) = "1" from rfl]
  · apply C2_weights_sum_to_one.2.1
    norm_num +decide [calcHarmonicUnnormalized, calculateCoefficientsSum,
      calculateWeightedRatioSum, mapSet, finVal, List.lookup,
      show toString (1:ℤ) = "1" from rfl]
  · apply C2_weights_sum_to_one.2.2.1
    · norm_num [calculateCoefficientsSum]
    · norm_num +decide [calcGeometricUnnormalized, calculateWeightedLogSum,
        tokenLogLoop, calculateCoefficientsSum, mlogq, mexpq, jexp, jdiv, mapSet,
        finVal, List.lookup, show toString (1:ℤ) = "1" from rfl]
  · apply C2_weights_sum_to_one.2.2.2
    · intro q; norm_num
    · norm_num +decide [tokenAddresses, allowedTokensFor, originalTokensWithWeights,
        tokensWithWeightsOf, allConfiguredTokens, jsDedup, jsToLower, jsCharToLower,
        mapSet, getStrategyId, strTruthy, List.lookup, List.filter]
    · norm_num +decide [totalObligatedFor, totalOne, allowedTokensFor,
        originalTokensWithWeights, tokensWithWeightsOf, allConfiguredTokens, findTW,
        jsToLower, jsCharToLower, mapSet, getStrategyId, strTruthy, List.lookup,
        List.filter, List.find?]

/-! ## Claim C4 -/

/-- Modelled from the spec (claim C4): the claimed per-token term with
beta read from the token config as sharedRiskLevel / 10000 and the risk
floored at 1. -/
def specRiskTerm (E : ℚ → ℚ) (sharedRiskLevel : ℚ)
    (depositAmount totalObligatedBalance : ℚ) (risk : ℚ) : ℚ :=
  (depositAmount / totalObligatedBalance) *
    mexpq E (-(sharedRiskLevel / 10000) * max 1 risk)

/-- Rational model of Math.exp at the point evaluated by the C4
counterexample: exp(-1/20) = 0.95122942450071... is modelled by the
rational 0.9512294245 (accurate to 1e-11); every other argument is
irrelevant to the evaluation. -/
def expModelCE : ℚ → ℚ := fun q =>
  if q = -(1/20) then 9512294245/10000000000 else 1

/-- C4 counterexample: the engine ignores any tokenConfig; with a token
config whose sharedRiskLevel is 0 the claimed term would be
(400/400) * exp(0) = 1, but the recorded term is
(400/400) * exp(-0.05 * 1) = exp(-1/20), about 0.95122, because beta is
hard-coded to 0.05 (and the function does not even receive
tokenConfigs). -/
theorem C4_counterexample :
    tempWeightsFor expModelCE [⟨"1", []⟩] [⟨"0xtok", 1⟩]
      [⟨some "1", none, [⟨"0xtok", none, some 400⟩], none⟩] [] "0xtok" 400 =
      [("1", 9512294245/10000000000)] ∧
    specRiskTerm expModelCE 0 400 400 0 = 1 ∧
    (9512294245/10000000000 : ℚ) ≠ 1 := by
  refine ⟨?_, ?_, by norm_num⟩
  · norm_num +decide [tempWeightsFor, tempWeightOne, allowedTokensFor,
      originalTokensWithWeights, tokensWithWeightsOf, allConfiguredTokens, findTW,
      riskLookup, expModelCE, mexpq, jsToLower, jsCharToLower, mapSet, getStrategyId,
      strTruthy, List.lookup, List.filter, List.find?]
  · norm_num [specRiskTerm, mexpq]

/-- C4 amended: the risk floor max(1, risk) and the term formula hold,
and a token with zero computed total obligated balance is skipped, but
beta is the hard-coded constant 0.05 = 1/20 - the engine takes no
tokenConfigs and never reads a sharedRiskLevel. -/
theorem C4_risk_term_hardcoded_beta :
    (∀ (E : ℚ → ℚ) (apiData : List ApiStrategy) (tcs : List TokenCoefficient)
      (strats : List UIStrategy) (risks : List (String × List (String × ℚ)))
      (t : String) (T : ℕ) (s : UIStrategy) (sid : String) (tw : UITokenWeight)
      (d : ℕ),
      s ∈ strats → getStrategyId s = some sid →
      t ∈ allowedTokensFor apiData tcs sid →
      findTW s t = some tw → tw.depositAmount = some d → d ≠ 0 →
      (sid, ((d : ℚ) / (T : ℚ)) *
        mexpq E (-(1/20) * max 1 (riskLookup risks t sid))) ∈
        tempWeightsFor E apiData tcs strats risks t T) ∧
    (∀ (E : ℚ → ℚ) (apiData : List ApiStrategy) (tcs : List TokenCoefficient)
      (strats : List UIStrategy) (risks : List (String × List (String × ℚ)))
      (m : List SimEntry) (t : String),
      totalObligatedFor apiData tcs strats t = 0 →
      processToken E apiData tcs strats risks m t = m) := by
  constructor
  · intro E apiData tcs strats risks t T s sid tw d hs hid hall htw hd hd0
    have hone : tempWeightOne E apiData tcs risks t T s =
        [(sid, ((d : ℚ) / (T : ℚ)) *
          mexpq E (-(1/20) * max 1 (riskLookup risks t sid)))] := by
      rw [tempWeightOne, hid]
      dsimp only
      rw [if_pos hall, htw]
      dsimp only
      rw [hd]
      dsimp only
      rw [if_neg hd0]
    rw [tempWeightsFor]
    apply List.mem_flatten.mpr
    exact ⟨_, List.mem_map.mpr ⟨s, hs, rfl⟩, by rw [hone]; exact List.mem_singleton.mpr rfl⟩
  · intro E apiData tcs strats risks m t hT
    rw [processToken]
    dsimp only
    rw [if_pos hT]

/-- Witness for C4 amended: applied at the concrete single-strategy
input. -/
theorem C4_risk_term_witness :
    ("1", ((400 : ℚ) / (400 : ℚ)) *
      mexpq (fun _ => 1) (-(1/20) * max 1 (riskLookup [] "0xtok" "1"))) ∈
      tempWeightsFor (fun _ => 1) [⟨"1", []⟩] [⟨"0xtok", 1⟩]
        [⟨some "1", none, [⟨"0xtok", none, some 400⟩], none⟩] [] "0xtok" 400 := by
  apply C4_risk_term_hardcoded_beta.1 (fun _ => 1) [⟨"1", []⟩] [⟨"0xtok", 1⟩]
    [⟨some "1", none, [⟨"0xtok", none, some 400⟩], none⟩] [] "0xtok" 400
    ⟨some "1", none, [⟨"0xtok", none, some 400⟩], none⟩ "1"
    ⟨"0xtok", none, some 400⟩ 400
  · exact List.mem_singleton.mpr rfl
  · rfl
  · norm_num +decide [allowedTokensFor, originalTokensWithWeights,
      tokensWithWeightsOf, allConfiguredTokens, jsToLower, jsCharToLower, mapSet,
      List.lookup, List.filter]
  · norm_num +decide [findTW, jsToLower, jsCharToLower, List.find?]
  · rfl
  · norm_num

/-! ## Claim C5 lemma layer -/

/-- Lookup of the map entry with the given id (Map.get keyed by
strategy id). -/
def entryLookup (m : List SimEntry) (sid : String) : Option SimEntry :=
  m.find? (fun e => e.id == sid)

/-- The validatorBalanceWeight view of a map entry: none when the entry
is absent, some of its optional value when present. -/
def vbwOf (m : List SimEntry) (sid : String) : Option (Option ℚ) :=
  (entryLookup m sid).map (fun e => e.validatorBalanceWeight)

theorem entryLookup_map (g : SimEntry → SimEntry) (hg : ∀ e, (g e).id = e.id)
    (m : List SimEntry) (sid : String) :
    entryLookup (m.map g) sid = (entryLookup m sid).map g := by
  rw [entryLookup, List.find?_map g m, entryLookup]
  have hfun : ((fun e : SimEntry => e.id == sid) ∘ g) =
      (fun e : SimEntry => e.id == sid) := by
    funext e
    simp [Function.comp, hg]
  rw [hfun]

theorem entryLookup_id (m : List SimEntry) (sid : String) (e : SimEntry)
    (h : entryLookup m sid = some e) : e.id = sid := by
  have := List.find?_some h
  exact beq_iff_eq.mp this

theorem vbwOf_pushWeight (m : List SimEntry) (sid' : String) (p : String × ℚ)
    (sid : String) : vbwOf (pushWeight m sid' p) sid = vbwOf m sid := by
  rw [vbwOf, vbwOf, pushWeight, entryLookup_map _ (by
    intro e
    by_cases he : e.id = sid' <;> simp [he])]
  cases h : entryLookup m sid with
  | none => rfl
  | some e =>
      by_cases he : e.id = sid' <;> simp [he]

theorem vbwOf_setVbw_ne (m : List SimEntry) (sid' : String) (v : ℚ) (sid : String)
    (hne : sid ≠ sid') : vbwOf (setVbw m sid' v) sid = vbwOf m sid := by
  rw [vbwOf, vbwOf, setVbw, entryLookup_map _ (by
    intro e
    by_cases he : e.id = sid' <;> simp [he])]
  cases h : entryLookup m sid with
  | none => rfl
  | some e =>
      have hid := entryLookup_id m sid e h
      have he : ¬ e.id = sid' := fun hc => hne (hid ▸ hc)
      simp [he]

theorem vbwOf_setVbw_self (m : List SimEntry) (sid : String) (v : ℚ) (w : Option ℚ)
    (h : vbwOf m sid = some w) : vbwOf (setVbw m sid v) sid = some (some v) := by
  rw [vbwOf, setVbw, entryLookup_map _ (by
    intro e
    by_cases he : e.id = sid <;> simp [he])]
  rw [vbwOf] at h
  cases hl : entryLookup m sid with
  | none => rw [hl] at h; cases h
  | some e =>
      have hid := entryLookup_id m sid e hl
      simp [hid]

theorem vbwOf_processToken (E : ℚ → ℚ) (apiData : List ApiStrategy)
    (tcs : List TokenCoefficient) (strats : List UIStrategy)
    (risks : List (String × List (String × ℚ))) (t : String) (sid : String) :
    ∀ (m : List SimEntry),
    vbwOf (processToken E apiData tcs strats risks m t) sid = vbwOf m sid := by
  intro m
  rw [processToken]
  dsimp only
  split
  · rfl
  · have hfold : ∀ (tmp : List (String × ℚ)) (m' : List SimEntry) (c : ℚ),
        vbwOf (tmp.foldl (fun acc p => pushWeight acc p.1 (t, p.2 * c)) m') sid =
          vbwOf m' sid := by
      intro tmp
      induction tmp with
      | nil => intro m' c; rfl
      | cons p rest ih =>
          intro m' c
          rw [List.foldl_cons, ih, vbwOf_pushWeight]
    exact hfold _ m _

theorem vbwOf_fold_processToken (E : ℚ → ℚ) (apiData : List ApiStrategy)
    (tcs : List TokenCoefficient) (strats : List UIStrategy)
    (risks : List (String × List (String × ℚ))) (addrs : List String)
    (sid : String) :
    ∀ (m : List SimEntry),
    vbwOf (addrs.foldl (processToken E apiData tcs strats risks) m) sid =
      vbwOf m sid := by
  induction addrs with
  | nil => intro m; rfl
  | cons a rest ih =>
      intro m
      rw [List.foldl_cons, ih, vbwOf_processToken]

theorem entryLookup_entrySet_self (m : List SimEntry) (e : SimEntry) :
    entryLookup (entrySet m e) e.id = some e := by
  induction m with
  | nil => simp [entrySet, entryLookup, List.find?]
  | cons e' rest ih =>
      rw [entrySet]
      by_cases he : e'.id = e.id
      · rw [if_pos he]
        simp [entryLookup, List.find?]
      · rw [if_neg he]
        rw [entryLookup, List.find?]
        have hbeq : (e'.id == e.id) = false := beq_eq_false_iff_ne.mpr he
        rw [hbeq]
        exact ih

theorem entryLookup_entrySet_ne (m : List SimEntry) (e : SimEntry) (sid : String)
    (h : sid ≠ e.id) : entryLookup (entrySet m e) sid = entryLookup m sid := by
  induction m with
  | nil =>
      simp only [entrySet, entryLookup, List.find?]
      have hbeq : (e.id == sid) = false :=
        beq_eq_false_iff_ne.mpr (fun hc => h hc.symm)
      rw [hbeq]
  | cons e' rest ih =>
      rw [entrySet]
      by_cases he : e'.id = e.id
      · rw [if_pos he]
        rw [entryLookup, List.find?, entryLookup, List.find?]
        have h1 : (e.id == sid) = false :=
          beq_eq_false_iff_ne.mpr (fun hc => h hc.symm)
        have h2 : (e'.id == sid) = false := by
          rw [he]
          exact h1
        rw [h1, h2]
      · rw [if_neg he]
        rw [entryLookup, List.find?, entryLookup, List.find?]
        cases hbeq : (e'.id == sid) with
        | true => rfl
        | false => exact ih

theorem initFold_entryLookup (sid : String) :
    ∀ (l : List UIStrategy) (m : List SimEntry),
    ((∃ s ∈ l, getStrategyId s = some sid) ∨
      entryLookup m sid = some ⟨sid, [], none⟩) →
    entryLookup (l.foldl (fun m s =>
      match getStrategyId s with
      | none => m
      | some strategyId => entrySet m ⟨strategyId, [], none⟩) m) sid =
      some ⟨sid, [], none⟩ := by
  intro l
  induction l with
  | nil =>
      intro m h
      rcases h with ⟨s, hs, _⟩ | h2
      · cases hs
      · exact h2
  | cons s rest ih =>
      intro m h
      rw [List.foldl_cons]
      cases hid : getStrategyId s with
      | none =>
          apply ih
          rcases h with ⟨s', hs', hid'⟩ | h2
          · rcases List.mem_cons.mp hs' with rfl | hmem
            · rw [hid] at hid'; cases hid'
            · exact Or.inl ⟨s', hmem, hid'⟩
          · exact Or.inr h2
      | some sid' =>
          apply ih
          by_cases hss : sid' = sid
          · subst hss
            exact Or.inr (entryLookup_entrySet_self m ⟨sid', [], none⟩)
          · rcases h with ⟨s', hs', hid'⟩ | h2
            · rcases List.mem_cons.mp hs' with rfl | hmem
              · rw [hid] at hid'
                cases hid'
                exact absurd rfl hss
              · exact Or.inl ⟨s', hmem, hid'⟩
            · refine Or.inr ?_
              rw [entryLookup_entrySet_ne m _ sid (fun hc => hss hc.symm)]
              exact h2

theorem initPass_entryLookup (strats : List UIStrategy) (s : UIStrategy)
    (sid : String) (hs : s ∈ strats) (hid : getStrategyId s = some sid) :
    entryLookup (initPass strats) sid = some ⟨sid, [], none⟩ :=
  initFold_entryLookup sid strats [] (Or.inl ⟨s, hs, hid⟩)

theorem vbwOf_validatorPass_skip (sid : String) :
    ∀ (l : List UIStrategy),
    (∀ x ∈ l, ∀ sid', getStrategyId x = some sid' → sid' ≠ sid) →
    ∀ (m : List SimEntry), vbwOf (validatorPass l m) sid = vbwOf m sid := by
  intro l
  induction l with
  | nil => intro _ m; rfl
  | cons s rest ih =>
      intro hno m
      rw [validatorPass, List.foldl_cons]
      have hno' : ∀ x ∈ rest, ∀ sid', getStrategyId x = some sid' → sid' ≠ sid :=
        fun x hx => hno x (List.mem_cons_of_mem s hx)
      cases hid : getStrategyId s with
      | none =>
          have := ih hno' m
          rw [validatorPass] at this
          exact this
      | some sid' =>
          cases hv : s.validatorBalanceWeight with
          | none =>
              have := ih hno' m
              rw [validatorPass] at this
              exact this
          | some v =>
              have hne : sid ≠ sid' :=
                fun hc => (hno s (List.mem_cons_self s rest) sid' hid) hc.symm
              have := ih hno' (setVbw m sid' v)
              rw [validatorPass] at this
              rw [this, vbwOf_setVbw_ne m sid' v sid hne]

theorem validatorPass_append (l1 l2 : List UIStrategy) (m : List SimEntry) :
    validatorPass (l1 ++ l2) m = validatorPass l2 (validatorPass l1 m) := by
  rw [validatorPass, validatorPass, validatorPass, List.foldl_append]

theorem validatorPass_cons_set (s : UIStrategy) (l : List UIStrategy)
    (m : List SimEntry) (sid : String) (v : ℚ)
    (hid : getStrategyId s = some sid) (hv : s.validatorBalanceWeight = some v) :
    validatorPass (s :: l) m = validatorPass l (setVbw m sid v) := by
  rw [validatorPass, List.foldl_cons, validatorPass]
  simp only [hid, hv]

theorem validatorPass_cons_novbw (s : UIStrategy) (l : List UIStrategy)
    (m : List SimEntry) (sid : String)
    (hid : getStrategyId s = some sid) (hv : s.validatorBalanceWeight = none) :
    validatorPass (s :: l) m = validatorPass l m := by
  rw [validatorPass, List.foldl_cons, validatorPass]
  simp only [hid, hv]

/-- C5 counterexample: with two strategies whose validator balance
weights are 100 and 300, the engine's output carries the inputs 100 and
300 unchanged - no summation into totalBAppBalance and no division:
the claimed normalized value for the first strategy would be
100 / (100 + 300) = 1/4, which is not what is returned. -/
theorem C5_counterexample :
    calculateSimulationParticipantWeights (fun _ => 1) []
      [⟨some "1", none, [], some 100⟩, ⟨some "2", none, [], some 300⟩] [] =
      [⟨"1", [], some 100⟩, ⟨"2", [], some 300⟩] ∧
    (100 : ℚ) ≠ 100 / (100 + 300) := by
  refine ⟨?_, by norm_num⟩
  norm_num +decide [calculateSimulationParticipantWeights, initPass,
    riskByTokenAndStrategy, tokenAddresses, processToken, allowedTokensFor,
    originalTokensWithWeights, allConfiguredTokens, tokenRisksOf, jsDedup, mapSet,
    entrySet, setVbw, validatorPass, getStrategyId, strTruthy, List.lookup]

/-- C5 amended: the engine performs no validator-balance normalization:
for every strategy with a valid, unique id, the output entry's
validatorBalanceWeight equals the input strategy's
validatorBalanceWeight unchanged (and stays unset when the input has
none); no totalBAppBalance is computed. -/
theorem C5_validator_balance_passthrough :
    ∀ (E : ℚ → ℚ) (apiData : List ApiStrategy) (tcs : List TokenCoefficient)
      (strats : List UIStrategy) (s : UIStrategy) (sid : String),
      (strats.filterMap getStrategyId).Nodup →
      s ∈ strats → getStrategyId s = some sid →
      vbwOf (calculateSimulationParticipantWeights E apiData strats tcs) sid =
        some s.validatorBalanceWeight := by
  intro E apiData tcs strats s sid hnd hs hid
  obtain ⟨pre, post, rfl⟩ := List.append_of_mem hs
  have hfm : ((pre ++ s :: post).filterMap getStrategyId) =
      pre.filterMap getStrategyId ++ (sid :: post.filterMap getStrategyId) := by
    rw [List.filterMap_append]
    congr 1
    rw [List.filterMap_cons]
    simp only [hid]
  rw [hfm, List.nodup_append] at hnd
  obtain ⟨hnd1, hnd2, hdisj⟩ := hnd
  have hsid_pre : sid ∉ pre.filterMap getStrategyId :=
    fun hc => hdisj hc (List.mem_cons_self _ _)
  have hsid_post : sid ∉ post.filterMap getStrategyId := (List.nodup_cons.mp hnd2).1
  have hno_pre : ∀ x ∈ pre, ∀ sid', getStrategyId x = some sid' → sid' ≠ sid :=
    fun x hx sid' hx' hc =>
      hsid_pre (List.mem_filterMap.mpr ⟨x, hx, hc ▸ hx'⟩)
  have hno_post : ∀ x ∈ post, ∀ sid', getStrategyId x = some sid' → sid' ≠ sid :=
    fun x hx sid' hx' hc =>
      hsid_post (List.mem_filterMap.mpr ⟨x, hx, hc ▸ hx'⟩)
  have hsmem : s ∈ pre ++ s :: post :=
    List.mem_append.mpr (Or.inr (List.mem_cons_self s post))
  simp only [calculateSimulationParticipantWeights]
  have hm1 : vbwOf ((tokenAddresses apiData tcs (pre ++ s :: post)).foldl
      (processToken E apiData tcs (pre ++ s :: post)
        (riskByTokenAndStrategy apiData tcs (pre ++ s :: post)))
      (initPass (pre ++ s :: post))) sid = some none := by
    rw [vbwOf_fold_processToken]
    rw [vbwOf, initPass_entryLookup (pre ++ s :: post) s sid hsmem hid]
    rfl
  rw [validatorPass_append]
  cases hv : s.validatorBalanceWeight with
  | some v =>
      rw [validatorPass_cons_set s post _ sid v hid hv]
      rw [vbwOf_validatorPass_skip sid post hno_post]
      have hpre : vbwOf (validatorPass pre ((tokenAddresses apiData tcs
          (pre ++ s :: post)).foldl (processToken E apiData tcs (pre ++ s :: post)
          (riskByTokenAndStrategy apiData tcs (pre ++ s :: post)))
          (initPass (pre ++ s :: post)))) sid = some none := by
        rw [vbwOf_validatorPass_skip sid pre hno_pre]
        exact hm1
      rw [vbwOf_setVbw_self _ sid v none hpre]
  | none =>
      rw [validatorPass_cons_novbw s post _ sid hid hv]
      rw [vbwOf_validatorPass_skip sid post hno_post]
      rw [vbwOf_validatorPass_skip sid pre hno_pre]
      exact hm1

/-- Witness for C5 amended: applied at a concrete strategy whose
validator balance weight 100 is returned unchanged. -/
theorem C5_validator_balance_witness :
    vbwOf (calculateSimulationParticipantWeights (fun _ => 1) []
      [⟨some "1", none, [], some 100⟩] []) "1" = some (some 100) := by
  have h := C5_validator_balance_passthrough (fun _ => 1) [] []
    [⟨some "1", none, [], some 100⟩] ⟨some "1", none, [], some 100⟩ "1"
    (by decide) (List.mem_singleton.mpr rfl) rfl
  simpa using h

end SSV
